import Mathlib

/-!
Shallow embedding of the discrete-time multi-server queue simulator
(`server.py`, with `mesa.py` a near-duplicate variant of the same engine
that omits the statistics fields).  Python objects are embedded as values:
`TaskAgent` objects live in a single store (the scheduler's task-agent
list, in insertion order) and are referenced by their `unique_id`, which
mirrors Python reference semantics (each task's `unique_id` is the step of
its arrival, so at most one task is created per step and ids are unique on
states reachable from the constructor).  The pseudorandom generator is
externalized: each call to `QueueServerModel.step` receives the step's
arrival decision, `none` for `random.random() >= task_arrival_rate` (no
arrival) and `some x` for an arrival whose raw exponential sample is `x`
(`random.expovariate` returns nonnegative reals for a positive rate, so
Python's truncating `int(...)` coincides with the floor used here).
`RandomActivation` shuffles agent activation order per step; task agents
have a no-op `step` and each server agent reads and writes only its own
fields and the tasks it alone references, so activating the servers in
list order is observationally equivalent and is what `stepAllServers`
does.  The `DataCollector` is an external sink and is not modelled.
-/

namespace QueueSim

/-- Embeds `TaskAgent.__init__` fields (`server.py` lines 44-51): service
times and timestamps are Python ints, `assigned_server` holds the id of
the owning server (`None` at creation). -/
structure TaskAgent where
  unique_id : Int
  initial_service_time : Int
  remaining_service_time : Int
  assigned_server : Option Nat
  arrival_time : Int
  queue_wait_time : Int
deriving DecidableEq

/-- Embeds `ServerAgent.__init__` fields (`server.py` lines 9-15):
`current_task` and `queue` hold task ids into the task store. -/
structure ServerAgent where
  unique_id : Nat
  busy : Bool
  current_task : Option Int
  total_service_time : Int
  queue : List Int
  total_tasks_served : Int
deriving DecidableEq

/-- Dereference a task id in the store, mirroring a Python object
reference (first store entry with that id). -/
def getTask (tasks : List TaskAgent) (uid : Int) : Option TaskAgent :=
  tasks.find? (fun t => t.unique_id == uid)

/-- Mutate the task with the given id in place, mirroring a Python
attribute assignment through an object reference. -/
def updateTask (tasks : List TaskAgent) (uid : Int) (f : TaskAgent → TaskAgent) :
    List TaskAgent :=
  tasks.map (fun t => if t.unique_id == uid then f t else t)

/-- Fresh server as built by `ServerAgent.__init__`. -/
def ServerAgent.init (i : Nat) : ServerAgent where
  unique_id := i
  busy := false
  current_task := none
  total_service_time := 0
  queue := []
  total_tasks_served := 0

/-- The two task mutations of `begin_service` (`server.py` lines 29-31):
record the owning server's id and the queueing delay
`model.current_step - task.arrival_time`. -/
def assignF (sid : Nat) (current_step : Int) (t : TaskAgent) : TaskAgent :=
  { t with assigned_server := some sid, queue_wait_time := current_step - t.arrival_time }

/-- Embeds `ServerAgent.begin_service` (`server.py` lines 26-32): mark the
server busy with the task and set the task's `assigned_server` and
`queue_wait_time`.  The `print` call is console output and is not
modelled. -/
def ServerAgent.begin_service (s : ServerAgent) (uid : Int) (tasks : List TaskAgent)
    (current_step : Int) : ServerAgent × List TaskAgent :=
  ({ s with busy := true, current_task := some uid },
   updateTask tasks uid (assignF s.unique_id current_step))

/-- Embeds `ServerAgent.complete_service` (`server.py` lines 34-40).  In
Python `self.current_task` is dereferenced unconditionally; the method is
only ever called from `step` under the guard `self.busy and
self.current_task`, so the `none` fallback below is unreachable from the
code's call sites (Python would raise `AttributeError` there). -/
def ServerAgent.complete_service (s : ServerAgent) (tasks : List TaskAgent) : ServerAgent :=
  match s.current_task with
  | some uid =>
      let init_time :=
        match getTask tasks uid with
        | some t => t.initial_service_time
        | none => 0
      { s with busy := false,
               total_service_time := s.total_service_time + init_time,
               total_tasks_served := s.total_tasks_served + 1,
               current_task := none }
  | none => s

/-- The in-place mutation `self.current_task.remaining_service_time -= 1`
(`server.py` line 18). -/
def decrServiceF (t : TaskAgent) : TaskAgent :=
  { t with remaining_service_time := t.remaining_service_time - 1 }

/-- The value of `self.current_task.remaining_service_time` read back
after the decrement (`server.py` line 19).  The `none` fallback covers a
current-task id absent from the store; it is unreachable on states
reachable from the constructor, where `current_task` ids always name
stored tasks (in Python `current_task` is a direct object reference), and
its value 1 makes the absent case a non-completion. -/
def remAfterDecr (tasks : List TaskAgent) (uid : Int) : Int :=
  match getTask (updateTask tasks uid decrServiceF) uid with
  | some t => t.remaining_service_time
  | none => 1

/-- Embeds the first statement of `ServerAgent.step` (`server.py` lines
18-21): if busy with a current task, decrement its remaining service time
and complete the service when it reaches 0 or below. -/
def ServerAgent.serve_tick (s : ServerAgent) (tasks : List TaskAgent) :
    ServerAgent × List TaskAgent :=
  if s.busy && s.current_task.isSome then
    match s.current_task with
    | some uid =>
        let tasks2 := updateTask tasks uid decrServiceF
        if remAfterDecr tasks uid ≤ 0 then (s.complete_service tasks2, tasks2) else (s, tasks2)
    | none => (s, tasks)
  else (s, tasks)

/-- Embeds the second statement of `ServerAgent.step` (`server.py` lines
22-23): if (now or already) idle with a nonempty queue, pop the front task
and begin serving it. -/
def ServerAgent.dequeue_tick (s : ServerAgent) (tasks : List TaskAgent) (current_step : Int) :
    ServerAgent × List TaskAgent :=
  if !s.busy && !s.queue.isEmpty then
    match s.queue with
    | uid :: rest => ServerAgent.begin_service { s with queue := rest } uid tasks current_step
    | [] => (s, tasks)
  else (s, tasks)

/-- Embeds `ServerAgent.step` (`server.py` lines 17-24): the two
statements above, in order, within one tick. -/
def ServerAgent.step (s : ServerAgent) (tasks : List TaskAgent) (current_step : Int) :
    ServerAgent × List TaskAgent :=
  let p := s.serve_tick tasks
  p.1.dequeue_tick p.2 current_step

/-- Embeds the `QueueServerModel` state (`server.py` lines 60-72): the
rate parameters only feed the externalized pseudorandom generator. -/
structure QueueServerModel where
  num_servers : Int
  task_arrival_rate : ℚ
  task_service_rate : ℚ
  max_steps : Int
  running : Bool
  current_step : Int
  total_queue_wait_time : Int
  total_time_in_system : Int
  total_tasks : Int
  servers : List ServerAgent
  tasks : List TaskAgent
deriving DecidableEq

/-- Embeds `QueueServerModel.__init__` (`server.py` lines 60-84): servers
with ids `0, 1, ...` are created and registered; no parameter validation
of any kind is performed (`range` of a nonpositive int is empty). -/
def QueueServerModel.init (num_servers : Int) (task_arrival_rate task_service_rate : ℚ)
    (max_steps : Int) : QueueServerModel where
  num_servers := num_servers
  task_arrival_rate := task_arrival_rate
  task_service_rate := task_service_rate
  max_steps := max_steps
  running := true
  current_step := 0
  total_queue_wait_time := 0
  total_time_in_system := 0
  total_tasks := 0
  servers := (List.range num_servers.toNat).map ServerAgent.init
  tasks := []

/-- Embeds `int(random.expovariate(task_service_rate))` (`server.py` line
90) applied to a raw sample `x`: `random.expovariate` is nonnegative for a
positive rate, where Python's truncating `int` coincides with the floor. -/
def sampledServiceTime (x : ℚ) : Int :=
  Rat.floor x

/-- Embeds `TaskAgent(self.current_step, self, service_time)` as built at
`server.py` line 91 from a raw exponential sample `x`. -/
def QueueServerModel.newTask (m : QueueServerModel) (x : ℚ) : TaskAgent where
  unique_id := m.current_step
  initial_service_time := sampledServiceTime x
  remaining_service_time := sampledServiceTime x
  assigned_server := none
  arrival_time := m.current_step
  queue_wait_time := 0

/-- Embeds `QueueServerModel.find_available_server` (`server.py` lines
118-123): first server in `self.servers` order that is not busy. -/
def find_available_server (servers : List ServerAgent) : Option ServerAgent :=
  servers.find? (fun s => !s.busy)

/-- One comparison step of Python's `min` with `key=lambda s:
len(s.queue)`: the running best is replaced only on a strictly smaller
key, so the first of several minima wins. -/
def pickShorter (best t : ServerAgent) : ServerAgent :=
  if t.queue.length < best.queue.length then t else best

/-- Embeds `min(self.servers, key=lambda s: len(s.queue))` (`server.py`
line 101) as the left fold of `pickShorter` over the server list. -/
def minByQueue (servers : List ServerAgent) : Option ServerAgent :=
  match servers with
  | [] => none
  | s :: rest => some (rest.foldl pickShorter s)

/-- In-place mutation of the server with the given id, mirroring Python
attribute assignment through the reference returned by
`find_available_server` or `min` (server ids are unique on states
reachable from the constructor). -/
def updateServerList (servers : List ServerAgent) (sid : Nat) (f : ServerAgent → ServerAgent) :
    List ServerAgent :=
  servers.map (fun s => if s.unique_id == sid then f s else s)

/-- Embeds the arrival block of `QueueServerModel.step` (`server.py` lines
91-102): register the new task, count it in `total_tasks`, then either
begin service on the first idle server or append the task to the shortest
queue (first minimum).  The final fallback is reachable only with an empty
server list, where Python's `min([])` raises `ValueError`. -/
def QueueServerModel.dispatch (m : QueueServerModel) (new_task : TaskAgent) :
    QueueServerModel :=
  let m1 := { m with tasks := m.tasks ++ [new_task], total_tasks := m.total_tasks + 1 }
  match find_available_server m1.servers with
  | some srv =>
      let p := srv.begin_service new_task.unique_id m1.tasks m1.current_step
      { m1 with servers := updateServerList m1.servers srv.unique_id (fun _ => p.1),
                tasks := p.2 }
  | none =>
      match minByQueue m1.servers with
      | some srv =>
          let enqueue := fun (s : ServerAgent) => { s with queue := s.queue ++ [new_task.unique_id] }
          { m1 with servers := updateServerList m1.servers srv.unique_id enqueue }
      | none => m1

/-- Embeds `self.schedule.step()` restricted to its observable effect: the
task agents' `step` is `pass`, and each server agent's `step` touches only
its own fields and the tasks it references, so the shuffled activation
order of `RandomActivation` is observationally equivalent to stepping the
servers in list order while threading the task store. -/
def stepAllServers : List ServerAgent → List TaskAgent → Int →
    List ServerAgent × List TaskAgent
  | [], tasks, _ => ([], tasks)
  | s :: rest, tasks, c =>
      let p := s.step tasks c
      let q := stepAllServers rest p.2 c
      (p.1 :: q.1, q.2)

/-- The `queue_wait_time` contribution of the statistics loop
(`server.py` lines 109-111): every task agent whose `assigned_server` is
set contributes, each time the loop runs. -/
def statsWaitSum (tasks : List TaskAgent) : Int :=
  tasks.foldl (fun acc t => if t.assigned_server.isSome then acc + t.queue_wait_time else acc) 0

/-- The `total_time_in_system` contribution of the statistics loop
(`server.py` lines 109-112): every task agent whose `assigned_server` is
set contributes `current_step - arrival_time`, each time the loop runs. -/
def statsSystemSum (tasks : List TaskAgent) (current_step : Int) : Int :=
  tasks.foldl (fun acc t =>
    if t.assigned_server.isSome then acc + (current_step - t.arrival_time) else acc) 0

/-- Embeds `QueueServerModel.step` (`server.py` lines 86-116) for one
step, given the step's externalized arrival decision: (a) possible arrival
and dispatch, (b) every server ticks, (c) the statistics loop over all
registered task agents, (d) clock increment and termination check.  The
`datacollector.collect` call is an external sink and is not modelled. -/
def QueueServerModel.step (m : QueueServerModel) (arrival : Option ℚ) : QueueServerModel :=
  let m1 :=
    match arrival with
    | some x => m.dispatch (m.newTask x)
    | none => m
  let p := stepAllServers m1.servers m1.tasks m1.current_step
  let m2 := { m1 with servers := p.1, tasks := p.2 }
  let m3 := { m2 with
      total_queue_wait_time := m2.total_queue_wait_time + statsWaitSum m2.tasks,
      total_time_in_system := m2.total_time_in_system + statsSystemSum m2.tasks m2.current_step }
  let next_step := m3.current_step + 1
  { m3 with current_step := next_step,
            running := if m3.max_steps ≤ next_step then false else m3.running }

/-- Embeds the driver loop `while model.running: model.step()` applied to
a finite stream of externalized arrival decisions, one per step. -/
def QueueServerModel.run (m : QueueServerModel) : List (Option ℚ) → QueueServerModel
  | [] => m
  | a :: rest => (m.step a).run rest

/-- Embeds `QueueServerModel.get_queue_lengths` (`server.py` lines 125-127). -/
def QueueServerModel.get_queue_lengths (m : QueueServerModel) : List Nat :=
  m.servers.map (fun s => s.queue.length)

/-- Embeds `QueueServerModel.get_busy_servers` (`server.py` lines 129-131). -/
def QueueServerModel.get_busy_servers (m : QueueServerModel) : Nat :=
  (m.servers.filter (fun s => s.busy)).length

/-- Embeds `QueueServerModel.get_avg_time_in_queue` (`server.py` lines
143-147): float division guarded by `total_tasks > 0`, else `0`. -/
def QueueServerModel.get_avg_time_in_queue (m : QueueServerModel) : ℚ :=
  if 0 < m.total_tasks then (m.total_queue_wait_time : ℚ) / (m.total_tasks : ℚ) else 0

/-- Embeds `QueueServerModel.get_avg_time_in_system` (`server.py` lines
149-153): float division guarded by `total_tasks > 0`, else `0`. -/
def QueueServerModel.get_avg_time_in_system (m : QueueServerModel) : ℚ :=
  if 0 < m.total_tasks then (m.total_time_in_system : ℚ) / (m.total_tasks : ℚ) else 0

/-! Verification infrastructure: projections and invariant predicates used
by the theorems below. -/

/-- The task fields that no operation of the simulator ever mutates:
id, initial service time and arrival step. -/
def taskKey (t : TaskAgent) : Int × Int × Int :=
  (t.unique_id, t.initial_service_time, t.arrival_time)

/-- Task ids referenced by a server: its current task slot followed by its
queue.  In Python these are direct object references. -/
def serverRefs (s : ServerAgent) : List Int :=
  (match s.current_task with
   | some u => [u]
   | none => []) ++ s.queue

/-- All task ids referenced by some server of the model. -/
def modelRefs (m : QueueServerModel) : List Int :=
  m.servers.flatMap serverRefs

/-- The remaining-service-time invariant relative to a reference list `R`:
every stored task has nonnegative remaining service time, and every stored
task still referenced (in service or queued) has at least one tick left. -/
def storeOK (R : List Int) (ts : List TaskAgent) : Prop :=
  ∀ t ∈ ts, 0 ≤ t.remaining_service_time ∧
    (t.unique_id ∈ R → 1 ≤ t.remaining_service_time)

/-- Well-formedness of a model state, true of every state reachable from
the constructor: servers are busy exactly when holding a current task,
task ids are historical step numbers below the clock, and every object
reference (server slots, queues, store entries) is unaliased. -/
structure WF (m : QueueServerModel) : Prop where
  busyInv : ∀ s ∈ m.servers, s.busy = s.current_task.isSome
  fresh : ∀ t ∈ m.tasks, t.unique_id < m.current_step
  refsBound : ∀ u ∈ modelRefs m, u < m.current_step
  refsNodup : (modelRefs m).Nodup
  storeNodup : (m.tasks.map (fun t => t.unique_id)).Nodup
  idsNodup : (m.servers.map (fun s => s.unique_id)).Nodup

/-- An externalized arrival decision whose floored sample, if any, is at
least 1: the arrival regime the specification's clamp would enforce. -/
def goodArrival : Option ℚ → Bool
  | none => true
  | some x => decide (1 ≤ sampledServiceTime x)

/-! Basic lemmas about the task store. -/

theorem getTask_cons (t : TaskAgent) (ts : List TaskAgent) (uid : Int) :
    getTask (t :: ts) uid = if t.unique_id == uid then some t else getTask ts uid := by
  by_cases h : t.unique_id == uid <;> simp [getTask, List.find?_cons, h]

theorem updateTask_cons (t : TaskAgent) (ts : List TaskAgent) (uid : Int)
    (f : TaskAgent → TaskAgent) :
    updateTask (t :: ts) uid f = (if t.unique_id == uid then f t else t) :: updateTask ts uid f :=
  rfl

theorem getTask_mem {ts : List TaskAgent} {uid : Int} {t : TaskAgent}
    (h : getTask ts uid = some t) : t ∈ ts ∧ t.unique_id = uid := by
  refine ⟨List.mem_of_find?_eq_some h, ?_⟩
  have hp := List.find?_some h
  simpa using hp

theorem getTask_eq_none_of_forall {ts : List TaskAgent} {uid : Int}
    (h : ∀ t ∈ ts, t.unique_id ≠ uid) : getTask ts uid = none := by
  apply List.find?_eq_none.mpr
  intro t ht
  simpa using h t ht

theorem updateTask_eq_of_forall {ts : List TaskAgent} {uid : Int} {f : TaskAgent → TaskAgent}
    (h : ∀ t ∈ ts, t.unique_id ≠ uid) : updateTask ts uid f = ts := by
  induction ts with
  | nil => rfl
  | cons t ts ih =>
      have h1 : t.unique_id ≠ uid := h t (by simp)
      rw [updateTask_cons, if_neg (by simpa using h1), ih (fun t' ht' => h t' (by simp [ht']))]

theorem getTask_updateTask_self {ts : List TaskAgent} {uid : Int} {f : TaskAgent → TaskAgent}
    (hf : ∀ t, (f t).unique_id = t.unique_id) :
    getTask (updateTask ts uid f) uid = (getTask ts uid).map f := by
  induction ts with
  | nil => rfl
  | cons t ts ih =>
      by_cases h : t.unique_id = uid
      · rw [updateTask_cons, if_pos (by simpa using h), getTask_cons, getTask_cons,
          if_pos (by simp [hf, h]), if_pos (by simpa using h)]
        rfl
      · rw [updateTask_cons, if_neg (by simpa using h), getTask_cons, getTask_cons,
          if_neg (by simpa using h), if_neg (by simpa using h), ih]

theorem getTask_updateTask_ne {ts : List TaskAgent} {u uid : Int} {f : TaskAgent → TaskAgent}
    (hf : ∀ t, (f t).unique_id = t.unique_id) (hne : u ≠ uid) :
    getTask (updateTask ts u f) uid = getTask ts uid := by
  induction ts with
  | nil => rfl
  | cons t ts ih =>
      by_cases h : t.unique_id = u
      · rw [updateTask_cons, if_pos (by simpa using h), getTask_cons, getTask_cons,
          if_neg (by simp [hf, h, hne]), if_neg (by simp [h, hne]), ih]
      · rw [updateTask_cons, if_neg (by simpa using h), getTask_cons, getTask_cons, ih]

theorem updateTask_map {β : Type} {ts : List TaskAgent} {uid : Int} {f : TaskAgent → TaskAgent}
    (g : TaskAgent → β) (hg : ∀ t, g (f t) = g t) :
    (updateTask ts uid f).map g = ts.map g := by
  induction ts with
  | nil => rfl
  | cons t ts ih =>
      by_cases h : t.unique_id = uid
      · rw [updateTask_cons, if_pos (by simpa using h)]
        simp [hg, ih]
      · rw [updateTask_cons, if_neg (by simpa using h)]
        simp [ih]

theorem updateTask_length {ts : List TaskAgent} {uid : Int} {f : TaskAgent → TaskAgent} :
    (updateTask ts uid f).length = ts.length := by
  simp [updateTask]

theorem getTask_append_last {ts : List TaskAgent} {t0 : TaskAgent}
    (h : ∀ t ∈ ts, t.unique_id ≠ t0.unique_id) :
    getTask (ts ++ [t0]) t0.unique_id = some t0 := by
  induction ts with
  | nil => simp [getTask_cons, getTask]
  | cons t ts ih =>
      have h1 : t.unique_id ≠ t0.unique_id := h t (by simp)
      rw [List.cons_append, getTask_cons, if_neg (by simpa using h1),
        ih (fun t' ht' => h t' (by simp [ht']))]

theorem getTask_map_rem_updateTask {ts : List TaskAgent} {u uid : Int} {f : TaskAgent → TaskAgent}
    (hf1 : ∀ t, (f t).unique_id = t.unique_id)
    (hf2 : ∀ t, (f t).remaining_service_time = t.remaining_service_time) :
    (getTask (updateTask ts u f) uid).map (fun t => t.remaining_service_time) =
      (getTask ts uid).map (fun t => t.remaining_service_time) := by
  by_cases h : u = uid
  · subst h
    rw [getTask_updateTask_self hf1]
    cases getTask ts u <;> simp [hf2]
  · rw [getTask_updateTask_ne hf1 h]

/-! Lemmas about a single server tick. -/

theorem step_eq (s : ServerAgent) (ts : List TaskAgent) (c : Int) :
    s.step ts c = (s.serve_tick ts).1.dequeue_tick (s.serve_tick ts).2 c :=
  rfl

theorem serve_tick_skip {s : ServerAgent} {ts : List TaskAgent}
    (h : (s.busy && s.current_task.isSome) = false) : s.serve_tick ts = (s, ts) := by
  simp only [ServerAgent.serve_tick, h, Bool.false_eq_true, if_false]

theorem serve_tick_complete {s : ServerAgent} {ts : List TaskAgent} {uid : Int}
    (hb : s.busy = true) (hct : s.current_task = some uid)
    (hr : remAfterDecr ts uid ≤ 0) :
    s.serve_tick ts =
      (s.complete_service (updateTask ts uid decrServiceF), updateTask ts uid decrServiceF) := by
  simp [ServerAgent.serve_tick, hb, hct, hr]

theorem serve_tick_continue {s : ServerAgent} {ts : List TaskAgent} {uid : Int}
    (hb : s.busy = true) (hct : s.current_task = some uid)
    (hr : ¬ remAfterDecr ts uid ≤ 0) :
    s.serve_tick ts = (s, updateTask ts uid decrServiceF) := by
  simp [ServerAgent.serve_tick, hb, hct, hr]

theorem dequeue_tick_busy {s : ServerAgent} {ts : List TaskAgent} {c : Int}
    (h : s.busy = true) : s.dequeue_tick ts c = (s, ts) := by
  simp [ServerAgent.dequeue_tick, h]

theorem dequeue_tick_nil {s : ServerAgent} {ts : List TaskAgent} {c : Int}
    (h : s.queue = []) : s.dequeue_tick ts c = (s, ts) := by
  simp [ServerAgent.dequeue_tick, h]

theorem dequeue_tick_pop {s : ServerAgent} {ts : List TaskAgent} {c : Int} {uid : Int}
    {rest : List Int} (hb : s.busy = false) (hq : s.queue = uid :: rest) :
    s.dequeue_tick ts c = ServerAgent.begin_service { s with queue := rest } uid ts c := by
  simp [ServerAgent.dequeue_tick, hb, hq]

theorem complete_service_proj {s : ServerAgent} {ts : List TaskAgent} {uid : Int}
    (hct : s.current_task = some uid) :
    (s.complete_service ts).busy = false ∧ (s.complete_service ts).current_task = none ∧
      (s.complete_service ts).queue = s.queue ∧
      (s.complete_service ts).unique_id = s.unique_id := by
  simp [ServerAgent.complete_service, hct]

theorem step_busyInv {s : ServerAgent} {ts : List TaskAgent} {c : Int}
    (h : s.busy = s.current_task.isSome) :
    (s.step ts c).1.busy = (s.step ts c).1.current_task.isSome := by
  rw [step_eq]
  rcases hb : s.busy with _ | _
  · have hct : s.current_task = none := by
      rw [hb] at h
      exact Option.not_isSome_iff_eq_none.mp (fun hs => by rw [← h] at hs; exact Bool.false_ne_true hs)
    rw [serve_tick_skip (by simp [hb])]
    rcases hq : s.queue with _ | ⟨u, rest⟩
    · rw [dequeue_tick_nil hq]
      simpa [hct] using h
    · rw [dequeue_tick_pop hb hq]
      simp [ServerAgent.begin_service]
  · have hs : s.current_task.isSome = true := by rw [← h, hb]
    obtain ⟨uid, hct⟩ := Option.isSome_iff_exists.mp hs
    by_cases hr : remAfterDecr ts uid ≤ 0
    · rw [serve_tick_complete hb hct hr]
      obtain ⟨hcb, hcc, hcq, _⟩ := @complete_service_proj s (updateTask ts uid decrServiceF) uid hct
      rcases hq : (s.complete_service (updateTask ts uid decrServiceF)).queue with _ | ⟨u, rest⟩
      · rw [dequeue_tick_nil hq]
        simp [hcb, hcc]
      · rw [dequeue_tick_pop hcb hq]
        simp [ServerAgent.begin_service]
    · rw [serve_tick_continue hb hct hr, dequeue_tick_busy hb]
      simp [hb, hct]

theorem serve_tick_map {β : Type} (g : TaskAgent → β)
    (hdec : ∀ t, g (decrServiceF t) = g t) (s : ServerAgent) (ts : List TaskAgent) :
    ((s.serve_tick ts).2).map g = ts.map g := by
  by_cases hg : (s.busy && s.current_task.isSome) = true
  · obtain ⟨hb, hs⟩ : s.busy = true ∧ s.current_task.isSome = true := by simpa using hg
    obtain ⟨uid, hct⟩ := Option.isSome_iff_exists.mp hs
    by_cases hr : remAfterDecr ts uid ≤ 0
    · rw [serve_tick_complete hb hct hr]
      exact updateTask_map g hdec
    · rw [serve_tick_continue hb hct hr]
      exact updateTask_map g hdec
  · rw [serve_tick_skip (Bool.not_eq_true _ ▸ hg)]

theorem dequeue_tick_map {β : Type} (g : TaskAgent → β)
    (hass : ∀ (sid : Nat) (cs : Int) t, g (assignF sid cs t) = g t)
    (s : ServerAgent) (ts : List TaskAgent) (c : Int) :
    ((s.dequeue_tick ts c).2).map g = ts.map g := by
  rcases hb : s.busy with _ | _
  · rcases hq : s.queue with _ | ⟨u, rest⟩
    · rw [dequeue_tick_nil hq]
    · rw [dequeue_tick_pop hb hq]
      exact updateTask_map g (fun t => hass _ _ t)
  · rw [dequeue_tick_busy hb]

theorem step_map {β : Type} (g : TaskAgent → β)
    (hdec : ∀ t, g (decrServiceF t) = g t)
    (hass : ∀ (sid : Nat) (cs : Int) t, g (assignF sid cs t) = g t)
    (s : ServerAgent) (ts : List TaskAgent) (c : Int) :
    ((s.step ts c).2).map g = ts.map g := by
  rw [step_eq, dequeue_tick_map g hass, serve_tick_map g hdec]

theorem step_map_key (s : ServerAgent) (ts : List TaskAgent) (c : Int) :
    ((s.step ts c).2).map taskKey = ts.map taskKey :=
  step_map taskKey (fun _ => rfl) (fun _ _ _ => rfl) s ts c

theorem step_store_length (s : ServerAgent) (ts : List TaskAgent) (c : Int) :
    ((s.step ts c).2).length = ts.length := by
  have h := step_map (fun _ => (0 : Nat)) (fun _ => rfl) (fun _ _ _ => rfl) s ts c
  simpa using congrArg List.length h

theorem serverRefs_some {s : ServerAgent} {u : Int} (h : s.current_task = some u) :
    serverRefs s = u :: s.queue := by
  simp [serverRefs, h]

theorem serverRefs_none {s : ServerAgent} (h : s.current_task = none) :
    serverRefs s = s.queue := by
  simp [serverRefs, h]

theorem listShape {α : Type} (l : List α) : l = [] ∨ ∃ a l2, l = a :: l2 := by
  cases l with
  | nil => exact Or.inl rfl
  | cons a l2 => exact Or.inr ⟨a, l2, rfl⟩

theorem optShape {α : Type} (o : Option α) : o = none ∨ ∃ a, o = some a := by
  cases o with
  | none => exact Or.inl rfl
  | some a => exact Or.inr ⟨a, rfl⟩

/-- The three possible outcomes of one server tick for the server itself:
unchanged, completed with nothing dequeued, or ending busy on the head of
its former queue (covering both the idle-dequeue and the
complete-then-dequeue paths). -/
theorem step_shape (s : ServerAgent) (ts : List TaskAgent) (c : Int) :
    (s.step ts c).1 = s ∨
    ((s.step ts c).1.current_task = none ∧ (s.step ts c).1.queue = s.queue ∧
      (s.step ts c).1.unique_id = s.unique_id) ∨
    (∃ u rest, s.queue = u :: rest ∧ (s.step ts c).1.current_task = some u ∧
      (s.step ts c).1.queue = rest ∧ (s.step ts c).1.unique_id = s.unique_id) := by
  rw [step_eq]
  rcases (Bool.eq_false_or_eq_true s.busy).symm with hb | hb
  · rw [serve_tick_skip (by simp [hb])]
    rcases listShape s.queue with hq | ⟨u, rest, hq⟩
    · rw [dequeue_tick_nil hq]
      exact Or.inl rfl
    · rw [dequeue_tick_pop hb hq]
      exact Or.inr (Or.inr ⟨u, rest, hq, by simp [ServerAgent.begin_service]⟩)
  · rcases optShape s.current_task with hct | ⟨uid, hct⟩
    · rw [serve_tick_skip (by simp [hct]), dequeue_tick_busy hb]
      exact Or.inl rfl
    · by_cases hr : remAfterDecr ts uid ≤ 0
      · rw [serve_tick_complete hb hct hr]
        obtain ⟨hcb, hcc, hcq, hci⟩ :=
          @complete_service_proj s (updateTask ts uid decrServiceF) uid hct
        rcases listShape (s.complete_service (updateTask ts uid decrServiceF)).queue with
          hq | ⟨u, rest, hq⟩
        · rw [dequeue_tick_nil hq]
          exact Or.inr (Or.inl ⟨hcc, hcq, hci⟩)
        · rw [dequeue_tick_pop hcb hq]
          refine Or.inr (Or.inr ⟨u, rest, by rw [← hcq, hq], ?_⟩)
          simp [ServerAgent.begin_service, hci]
      · rw [serve_tick_continue hb hct hr, dequeue_tick_busy hb]
        exact Or.inl rfl

theorem step_unique_id (s : ServerAgent) (ts : List TaskAgent) (c : Int) :
    (s.step ts c).1.unique_id = s.unique_id := by
  rcases step_shape s ts c with h | ⟨_, _, h⟩ | ⟨_, _, _, _, _, h⟩
  · rw [h]
  · exact h
  · exact h

theorem serverRefs_step_sublist (s : ServerAgent) (ts : List TaskAgent) (c : Int) :
    List.Sublist (serverRefs (s.step ts c).1) (serverRefs s) := by
  rcases step_shape s ts c with h | ⟨h1, h2, _⟩ | ⟨u, rest, hq, h1, h2, _⟩
  · rw [h]
  · rw [serverRefs_none h1, h2, serverRefs]
    exact List.sublist_append_right _ _
  · rw [serverRefs_some h1, h2, serverRefs, hq]
    exact List.sublist_append_right _ _

theorem step_queue_le (s : ServerAgent) (ts : List TaskAgent) (c : Int) :
    s.queue.length ≤ (s.step ts c).1.queue.length + 1 := by
  rcases step_shape s ts c with h | ⟨_, h2, _⟩ | ⟨u, rest, hq, _, h2, _⟩
  · rw [h]
    exact Nat.le_succ _
  · rw [h2]
    exact Nat.le_succ _
  · rw [h2, hq]
    simp

/-! Lemmas about stepping every server in order. -/

theorem stepAllServers_nil (ts : List TaskAgent) (c : Int) :
    stepAllServers [] ts c = ([], ts) :=
  rfl

theorem stepAllServers_cons (s : ServerAgent) (l : List ServerAgent) (ts : List TaskAgent)
    (c : Int) :
    stepAllServers (s :: l) ts c =
      ((s.step ts c).1 :: (stepAllServers l (s.step ts c).2 c).1,
       (stepAllServers l (s.step ts c).2 c).2) :=
  rfl

theorem stepAllServers_append (l1 l2 : List ServerAgent) (ts : List TaskAgent) (c : Int) :
    stepAllServers (l1 ++ l2) ts c =
      ((stepAllServers l1 ts c).1 ++ (stepAllServers l2 (stepAllServers l1 ts c).2 c).1,
       (stepAllServers l2 (stepAllServers l1 ts c).2 c).2) := by
  induction l1 generalizing ts with
  | nil => simp [stepAllServers_nil]
  | cons s l1 ih => simp [stepAllServers_cons, List.cons_append, ih]

theorem stepAllServers_map_key (l : List ServerAgent) (ts : List TaskAgent) (c : Int) :
    ((stepAllServers l ts c).2).map taskKey = ts.map taskKey := by
  induction l generalizing ts with
  | nil => rfl
  | cons s l ih => rw [stepAllServers_cons, ih, step_map_key]

theorem stepAllServers_store_length (l : List ServerAgent) (ts : List TaskAgent) (c : Int) :
    ((stepAllServers l ts c).2).length = ts.length := by
  induction l generalizing ts with
  | nil => rfl
  | cons s l ih => rw [stepAllServers_cons, ih, step_store_length]

theorem stepAllServers_busyInv {l : List ServerAgent} {ts : List TaskAgent} {c : Int}
    (h : ∀ s ∈ l, s.busy = s.current_task.isSome) :
    ∀ s2 ∈ (stepAllServers l ts c).1, s2.busy = s2.current_task.isSome := by
  induction l generalizing ts with
  | nil => intro s2 hs2; simp [stepAllServers_nil] at hs2
  | cons s l ih =>
      intro s2 hs2
      rw [stepAllServers_cons] at hs2
      rcases List.mem_cons.mp hs2 with h2 | h2
      · rw [h2]
        exact step_busyInv (h s (by simp))
      · exact ih (fun s' hs' => h s' (by simp [hs'])) s2 h2

theorem stepAllServers_map_id (l : List ServerAgent) (ts : List TaskAgent) (c : Int) :
    ((stepAllServers l ts c).1).map (fun s => s.unique_id) = l.map (fun s => s.unique_id) := by
  induction l generalizing ts with
  | nil => rfl
  | cons s l ih => simp [stepAllServers_cons, step_unique_id, ih]

theorem stepAllServers_refs_sublist (l : List ServerAgent) (ts : List TaskAgent) (c : Int) :
    List.Sublist (((stepAllServers l ts c).1).flatMap serverRefs) (l.flatMap serverRefs) := by
  induction l generalizing ts with
  | nil => simp [stepAllServers_nil]
  | cons s l ih =>
      rw [stepAllServers_cons]
      simpa using (serverRefs_step_sublist s ts c).append (ih _)

/-! Lemmas locating the task whose remaining service time a tick changes:
only the stepping server's own current task is ever decremented. -/

theorem remAfterDecr_eq_some {ts : List TaskAgent} {uid : Int} {t : TaskAgent}
    (ht : getTask ts uid = some t) : remAfterDecr ts uid = t.remaining_service_time - 1 := by
  unfold remAfterDecr
  rw [getTask_updateTask_self (f := decrServiceF) (fun _ => rfl), ht]
  rfl

theorem remAfterDecr_eq_none {ts : List TaskAgent} {uid : Int}
    (ht : getTask ts uid = none) : remAfterDecr ts uid = 1 := by
  unfold remAfterDecr
  rw [getTask_updateTask_self (f := decrServiceF) (fun _ => rfl), ht]
  rfl

theorem dequeue_tick_map_rem (s : ServerAgent) (ts : List TaskAgent) (c : Int) (uid : Int) :
    (getTask (s.dequeue_tick ts c).2 uid).map (fun t => t.remaining_service_time) =
      (getTask ts uid).map (fun t => t.remaining_service_time) := by
  rcases (Bool.eq_false_or_eq_true s.busy).symm with hb | hb
  · rcases listShape s.queue with hq | ⟨u, rest, hq⟩
    · rw [dequeue_tick_nil hq]
    · rw [dequeue_tick_pop hb hq]
      exact getTask_map_rem_updateTask (fun _ => rfl) (fun _ => rfl)
  · rw [dequeue_tick_busy hb]

theorem serve_tick_map_rem_frame {s : ServerAgent} {ts : List TaskAgent} {uid : Int}
    (h : s.current_task ≠ some uid) :
    (getTask (s.serve_tick ts).2 uid).map (fun t => t.remaining_service_time) =
      (getTask ts uid).map (fun t => t.remaining_service_time) := by
  by_cases hg : (s.busy && s.current_task.isSome) = true
  · obtain ⟨hb, hs⟩ : s.busy = true ∧ s.current_task.isSome = true := by simpa using hg
    obtain ⟨uid2, hct⟩ := Option.isSome_iff_exists.mp hs
    have hne : uid2 ≠ uid := fun he => h (he ▸ hct)
    by_cases hr : remAfterDecr ts uid2 ≤ 0
    · rw [serve_tick_complete hb hct hr]
      show (getTask (updateTask ts uid2 decrServiceF) uid).map
          (fun t => t.remaining_service_time) =
        (getTask ts uid).map (fun t => t.remaining_service_time)
      rw [getTask_updateTask_ne (f := decrServiceF) (fun _ => rfl) hne]
    · rw [serve_tick_continue hb hct hr]
      show (getTask (updateTask ts uid2 decrServiceF) uid).map
          (fun t => t.remaining_service_time) =
        (getTask ts uid).map (fun t => t.remaining_service_time)
      rw [getTask_updateTask_ne (f := decrServiceF) (fun _ => rfl) hne]
  · rw [serve_tick_skip (by simpa using hg)]

theorem step_remaining_frame {s : ServerAgent} {ts : List TaskAgent} {c : Int} {uid : Int}
    (h : s.current_task ≠ some uid) :
    (getTask (s.step ts c).2 uid).map (fun t => t.remaining_service_time) =
      (getTask ts uid).map (fun t => t.remaining_service_time) := by
  rw [step_eq, dequeue_tick_map_rem, serve_tick_map_rem_frame h]

theorem step_remaining_own {s : ServerAgent} {ts : List TaskAgent} {c : Int} {uid : Int}
    {t : TaskAgent} (hb : s.busy = true) (hct : s.current_task = some uid)
    (ht : getTask ts uid = some t) :
    (getTask (s.step ts c).2 uid).map (fun t2 => t2.remaining_service_time) =
      some (t.remaining_service_time - 1) := by
  rw [step_eq, dequeue_tick_map_rem]
  have h2 : getTask ((s.serve_tick ts).2) uid = some (decrServiceF t) := by
    by_cases hr : remAfterDecr ts uid ≤ 0
    · rw [serve_tick_complete hb hct hr]
      show getTask (updateTask ts uid decrServiceF) uid = some (decrServiceF t)
      rw [getTask_updateTask_self (f := decrServiceF) (fun _ => rfl), ht]
      rfl
    · rw [serve_tick_continue hb hct hr]
      show getTask (updateTask ts uid decrServiceF) uid = some (decrServiceF t)
      rw [getTask_updateTask_self (f := decrServiceF) (fun _ => rfl), ht]
      rfl
  rw [h2]
  rfl

theorem stepAllServers_remaining_frame {l : List ServerAgent} {ts : List TaskAgent} {c : Int}
    {uid : Int} (h : ∀ s ∈ l, s.current_task ≠ some uid) :
    (getTask (stepAllServers l ts c).2 uid).map (fun t => t.remaining_service_time) =
      (getTask ts uid).map (fun t => t.remaining_service_time) := by
  induction l generalizing ts with
  | nil => rfl
  | cons s l ih =>
      rw [stepAllServers_cons]
      rw [ih (fun s2 hs2 => h s2 (by simp [hs2])), step_remaining_frame (h s (by simp))]

theorem stepAllServers_remaining_own {l1 l2 : List ServerAgent} {sown : ServerAgent}
    {ts : List TaskAgent} {c : Int} {uid : Int} {r : Int}
    (h1 : ∀ s ∈ l1, s.current_task ≠ some uid) (h2 : ∀ s ∈ l2, s.current_task ≠ some uid)
    (hb : sown.busy = true) (hct : sown.current_task = some uid)
    (ht : (getTask ts uid).map (fun t => t.remaining_service_time) = some r) :
    (getTask (stepAllServers (l1 ++ sown :: l2) ts c).2 uid).map
        (fun t => t.remaining_service_time) = some (r - 1) := by
  have hsnd : (stepAllServers (l1 ++ sown :: l2) ts c).2 =
      (stepAllServers (sown :: l2) (stepAllServers l1 ts c).2 c).2 := by
    rw [stepAllServers_append]
  rw [hsnd, stepAllServers_cons]
  have hts1 : (getTask (stepAllServers l1 ts c).2 uid).map
      (fun t => t.remaining_service_time) = some r := by
    rw [stepAllServers_remaining_frame h1, ht]
  obtain ⟨t1, ht1, hr1⟩ := Option.map_eq_some'.mp hts1
  rw [stepAllServers_remaining_frame h2, step_remaining_own hb hct ht1, hr1]

/-! Lemmas about locating servers in the model's server list. -/

theorem find?_decomp {α : Type} (p : α → Bool) :
    ∀ (l : List α) (a : α), l.find? p = some a →
      ∃ l1 l2, l = l1 ++ a :: l2 ∧ ∀ x ∈ l1, p x = false := by
  intro l
  induction l with
  | nil => intro a h; simp [List.find?] at h
  | cons b l ih =>
      intro a h
      by_cases hb : p b = true
      · rw [List.find?_cons_of_pos _ hb] at h
        obtain rfl : b = a := by simpa using h
        exact ⟨[], l, rfl, by simp⟩
      · rw [List.find?_cons_of_neg _ (by simpa using hb)] at h
        obtain ⟨l1, l2, hl, hall⟩ := ih a h
        refine ⟨b :: l1, l2, by rw [hl, List.cons_append], ?_⟩
        intro x hx
        rcases List.mem_cons.mp hx with rfl | hx
        · simpa using hb
        · exact hall x hx

theorem updateServerList_cons (s : ServerAgent) (l : List ServerAgent) (sid : Nat)
    (f : ServerAgent → ServerAgent) :
    updateServerList (s :: l) sid f =
      (if s.unique_id == sid then f s else s) :: updateServerList l sid f :=
  rfl

theorem updateServerList_eq_of_forall {l : List ServerAgent} {sid : Nat}
    {f : ServerAgent → ServerAgent} (h : ∀ s ∈ l, s.unique_id ≠ sid) :
    updateServerList l sid f = l := by
  induction l with
  | nil => rfl
  | cons s l ih =>
      rw [updateServerList_cons, if_neg (by simpa using h s (by simp)),
        ih (fun s2 hs2 => h s2 (by simp [hs2]))]

theorem updateServerList_decomp {p q : List ServerAgent} {srv : ServerAgent}
    (f : ServerAgent → ServerAgent)
    (hnd : ((p ++ srv :: q).map (fun s => s.unique_id)).Nodup) :
    updateServerList (p ++ srv :: q) srv.unique_id f = p ++ f srv :: q := by
  induction p with
  | nil =>
      rw [List.nil_append, updateServerList_cons, if_pos (by simp)]
      have hq : ∀ s ∈ q, s.unique_id ≠ srv.unique_id := by
        intro s hs he
        have : srv.unique_id ∈ q.map (fun s => s.unique_id) :=
          List.mem_map.mpr ⟨s, hs, he⟩
        simp [List.nodup_cons] at hnd
        exact hnd.1 s hs he
      rw [updateServerList_eq_of_forall hq, List.nil_append]
  | cons b p ih =>
      have hb : b.unique_id ≠ srv.unique_id := by
        rw [List.cons_append, List.map_cons, List.nodup_cons] at hnd
        intro he
        exact hnd.1 (by
          rw [he]
          exact List.mem_map.mpr ⟨srv, by simp, rfl⟩)
      rw [List.cons_append, updateServerList_cons, if_neg (by simpa using hb)]
      rw [ih (by rw [List.cons_append, List.map_cons, List.nodup_cons] at hnd; exact hnd.2),
        List.cons_append]

theorem updateServerList_map_id {l : List ServerAgent} {sid : Nat}
    {f : ServerAgent → ServerAgent} (hf : ∀ s, s.unique_id = sid → (f s).unique_id = s.unique_id) :
    (updateServerList l sid f).map (fun s => s.unique_id) = l.map (fun s => s.unique_id) := by
  induction l with
  | nil => rfl
  | cons s l ih =>
      rw [updateServerList_cons]
      by_cases h : (s.unique_id == sid) = true
      · rw [if_pos h, List.map_cons, List.map_cons, ih, hf s (by simpa using h)]
      · rw [if_neg h, List.map_cons, List.map_cons, ih]

theorem mem_updateServerList {l : List ServerAgent} {sid : Nat} {f : ServerAgent → ServerAgent}
    {s2 : ServerAgent} (h : s2 ∈ updateServerList l sid f) :
    (∃ s0 ∈ l, s0.unique_id = sid ∧ s2 = f s0) ∨ s2 ∈ l := by
  unfold updateServerList at h
  obtain ⟨s0, hs0, he⟩ := List.mem_map.mp h
  by_cases hid : (s0.unique_id == sid) = true
  · exact Or.inl ⟨s0, hs0, by simpa using hid, by rw [← he, if_pos hid]⟩
  · right
    rw [← he, if_neg hid]
    exact hs0

/-! Projection lemmas for the model-level operations. -/

theorem run_nil (m : QueueServerModel) : m.run [] = m :=
  rfl

theorem run_cons (m : QueueServerModel) (a : Option ℚ) (rest : List (Option ℚ)) :
    m.run (a :: rest) = (m.step a).run rest :=
  rfl

theorem dispatch_total_tasks (m : QueueServerModel) (t0 : TaskAgent) :
    (m.dispatch t0).total_tasks = m.total_tasks + 1 := by
  rcases optShape (find_available_server m.servers) with h | ⟨srv, h⟩
  · rcases optShape (minByQueue m.servers) with h2 | ⟨srv2, h2⟩ <;>
      simp [QueueServerModel.dispatch, h, h2]
  · simp [QueueServerModel.dispatch, h]

theorem dispatch_current_step (m : QueueServerModel) (t0 : TaskAgent) :
    (m.dispatch t0).current_step = m.current_step := by
  rcases optShape (find_available_server m.servers) with h | ⟨srv, h⟩
  · rcases optShape (minByQueue m.servers) with h2 | ⟨srv2, h2⟩ <;>
      simp [QueueServerModel.dispatch, h, h2]
  · simp [QueueServerModel.dispatch, h]

theorem dispatch_max_steps (m : QueueServerModel) (t0 : TaskAgent) :
    (m.dispatch t0).max_steps = m.max_steps := by
  rcases optShape (find_available_server m.servers) with h | ⟨srv, h⟩
  · rcases optShape (minByQueue m.servers) with h2 | ⟨srv2, h2⟩ <;>
      simp [QueueServerModel.dispatch, h, h2]
  · simp [QueueServerModel.dispatch, h]

theorem begin_service_map {β : Type} (g : TaskAgent → β)
    (hass : ∀ (sid : Nat) (cs : Int) t, g (assignF sid cs t) = g t)
    (s : ServerAgent) (uid : Int) (ts : List TaskAgent) (c : Int) :
    ((s.begin_service uid ts c).2).map g = ts.map g :=
  updateTask_map g (fun t => hass _ _ t)

theorem dispatch_tasks_map_key (m : QueueServerModel) (t0 : TaskAgent) :
    ((m.dispatch t0).tasks).map taskKey = m.tasks.map taskKey ++ [taskKey t0] := by
  rcases optShape (find_available_server m.servers) with h | ⟨srv, h⟩
  · rcases optShape (minByQueue m.servers) with h2 | ⟨srv2, h2⟩ <;>
      simp [QueueServerModel.dispatch, h, h2]
  · simp only [QueueServerModel.dispatch, h]
    rw [begin_service_map taskKey (fun _ _ _ => rfl)]
    simp

theorem dispatch_tasks_length (m : QueueServerModel) (t0 : TaskAgent) :
    ((m.dispatch t0).tasks).length = m.tasks.length + 1 := by
  have h := dispatch_tasks_map_key m t0
  have h2 := congrArg List.length h
  simpa using h2

theorem step_some_servers (m : QueueServerModel) (x : ℚ) :
    (m.step (some x)).servers =
      (stepAllServers (m.dispatch (m.newTask x)).servers (m.dispatch (m.newTask x)).tasks
        (m.dispatch (m.newTask x)).current_step).1 :=
  rfl

theorem step_some_tasks (m : QueueServerModel) (x : ℚ) :
    (m.step (some x)).tasks =
      (stepAllServers (m.dispatch (m.newTask x)).servers (m.dispatch (m.newTask x)).tasks
        (m.dispatch (m.newTask x)).current_step).2 :=
  rfl

theorem step_none_servers (m : QueueServerModel) :
    (m.step none).servers = (stepAllServers m.servers m.tasks m.current_step).1 :=
  rfl

theorem step_none_tasks (m : QueueServerModel) :
    (m.step none).tasks = (stepAllServers m.servers m.tasks m.current_step).2 :=
  rfl

theorem step_total_tasks_none (m : QueueServerModel) :
    (m.step none).total_tasks = m.total_tasks :=
  rfl

theorem step_total_tasks_some (m : QueueServerModel) (x : ℚ) :
    (m.step (some x)).total_tasks = m.total_tasks + 1 := by
  show (m.dispatch (m.newTask x)).total_tasks = m.total_tasks + 1
  exact dispatch_total_tasks m _

theorem step_tasks_map_key_none (m : QueueServerModel) :
    (m.step none).tasks.map taskKey = m.tasks.map taskKey := by
  rw [step_none_tasks, stepAllServers_map_key]

theorem step_tasks_map_key_some (m : QueueServerModel) (x : ℚ) :
    (m.step (some x)).tasks.map taskKey =
      m.tasks.map taskKey ++ [taskKey (m.newTask x)] := by
  rw [step_some_tasks, stepAllServers_map_key, dispatch_tasks_map_key]

theorem step_tasks_length_none (m : QueueServerModel) :
    (m.step none).tasks.length = m.tasks.length := by
  rw [step_none_tasks, stepAllServers_store_length]

theorem step_tasks_length_some (m : QueueServerModel) (x : ℚ) :
    (m.step (some x)).tasks.length = m.tasks.length + 1 := by
  rw [step_some_tasks, stepAllServers_store_length, dispatch_tasks_length]

theorem run_allnone_total_tasks : ∀ (stream : List (Option ℚ)) (m : QueueServerModel),
    stream.all Option.isNone = true → (m.run stream).total_tasks = m.total_tasks := by
  intro stream
  induction stream with
  | nil => intro m _; rfl
  | cons a rest ih =>
      intro m h
      obtain ⟨ha, hrest⟩ : a.isNone = true ∧ rest.all Option.isNone = true := by simpa using h
      obtain rfl : a = none := by simpa using ha
      rw [run_cons, ih _ hrest, step_total_tasks_none]

theorem dispatch_busyInv {m : QueueServerModel} {t0 : TaskAgent}
    (h : ∀ s ∈ m.servers, s.busy = s.current_task.isSome) :
    ∀ s2 ∈ (m.dispatch t0).servers, s2.busy = s2.current_task.isSome := by
  intro s2 hs2
  rcases optShape (find_available_server m.servers) with hf | ⟨srv, hf⟩
  · rcases optShape (minByQueue m.servers) with h2 | ⟨srv2, h2⟩
    · simp only [QueueServerModel.dispatch, hf, h2] at hs2
      exact h s2 (by simpa using hs2)
    · simp only [QueueServerModel.dispatch, hf, h2] at hs2
      rcases mem_updateServerList (by simpa using hs2) with ⟨s0, hs0, _, he⟩ | hmem
      · rw [he]
        simpa using h s0 hs0
      · exact h s2 hmem
  · simp only [QueueServerModel.dispatch, hf] at hs2
    rcases mem_updateServerList (by simpa using hs2) with ⟨s0, hs0, _, he⟩ | hmem
    · rw [he]
      simp [ServerAgent.begin_service]
    · exact h s2 hmem

theorem step_model_busyInv {m : QueueServerModel} {a : Option ℚ}
    (h : ∀ s ∈ m.servers, s.busy = s.current_task.isSome) :
    ∀ s2 ∈ (m.step a).servers, s2.busy = s2.current_task.isSome := by
  rcases a with _ | x
  · rw [step_none_servers]
    exact stepAllServers_busyInv h
  · rw [step_some_servers]
    exact stepAllServers_busyInv (dispatch_busyInv h)

theorem run_busyInv (n : Int) (r sr : ℚ) (ms : Int) (stream : List (Option ℚ)) :
    ∀ s ∈ ((QueueServerModel.init n r sr ms).run stream).servers,
      s.busy = s.current_task.isSome := by
  suffices hgen : ∀ (stream2 : List (Option ℚ)) (m : QueueServerModel),
      (∀ s ∈ m.servers, s.busy = s.current_task.isSome) →
      ∀ s ∈ (m.run stream2).servers, s.busy = s.current_task.isSome by
    refine hgen stream _ ?_
    intro s hs
    simp only [QueueServerModel.init] at hs
    obtain ⟨i, _, rfl⟩ := List.mem_map.mp hs
    rfl
  intro stream2
  induction stream2 with
  | nil => intro m h; exact h
  | cons a rest ih =>
      intro m h
      exact ih _ (step_model_busyInv h)

/-! Claim theorems. -/

/-- C8 counterexample: constructing the model with `num_servers = 0` (and
also `num_servers = -3`), `task_arrival_rate = 2` outside `[0,1]` and
`max_steps ≤ 0` raises nothing and yields a fully-initialized, usable
engine with `running = true`; no `ConfigurationError` kind exists anywhere
in the code, refuting detection at construction. -/
theorem construction_no_validation_cex :
    (QueueServerModel.init 0 2 0 0).running = true ∧
    (QueueServerModel.init 0 2 0 0).servers = [] ∧
    (QueueServerModel.init 0 2 0 0).max_steps = 0 ∧
    (QueueServerModel.init (-3) 2 0 (-1)).running = true := by
  exact ⟨rfl, rfl, rfl, rfl⟩

/-- C8 (corrected): `QueueServerModel.__init__` performs no parameter
validation at all: for every parameter assignment, valid or not, it
returns a fully-initialized engine with `running = true`, `servers` of
length `max(num_servers, 0)`, a zeroed clock and zeroed statistics; no
error is ever reported at construction. -/
theorem construction_always_succeeds (n : Int) (r sr : ℚ) (ms : Int) :
    (QueueServerModel.init n r sr ms).running = true ∧
    (QueueServerModel.init n r sr ms).servers.length = n.toNat ∧
    (QueueServerModel.init n r sr ms).current_step = 0 ∧
    (QueueServerModel.init n r sr ms).total_tasks = 0 ∧
    (QueueServerModel.init n r sr ms).tasks = [] := by
  refine ⟨rfl, ?_, rfl, rfl, rfl⟩
  simp [QueueServerModel.init]

/-- C9: whenever `total_tasks = 0`, both average queries return `0`
instead of dividing, and a run fed only no-arrival decisions (the
`arrival_rate = 0` regime) keeps `total_tasks = 0`, so an engine run to
completion with zero arrivals answers `0` from both queries. -/
theorem avg_queries_zero_when_no_tasks (m : QueueServerModel) (h : m.total_tasks = 0)
    (n : Int) (r sr : ℚ) (ms : Int) (stream : List (Option ℚ))
    (hs : stream.all Option.isNone = true) :
    m.get_avg_time_in_queue = 0 ∧ m.get_avg_time_in_system = 0 ∧
    ((QueueServerModel.init n r sr ms).run stream).get_avg_time_in_queue = 0 ∧
    ((QueueServerModel.init n r sr ms).run stream).get_avg_time_in_system = 0 := by
  have hz : ((QueueServerModel.init n r sr ms).run stream).total_tasks = 0 := by
    rw [run_allnone_total_tasks stream _ hs]
    rfl
  refine ⟨?_, ?_, ?_, ?_⟩ <;>
    simp [QueueServerModel.get_avg_time_in_queue, QueueServerModel.get_avg_time_in_system, h, hz]

/-- C9 witness: a concrete empty run of 2 steps with 3 servers. -/
theorem avg_queries_zero_when_no_tasks_witness :
    (QueueServerModel.init 1 0 1 2).get_avg_time_in_queue = 0 ∧
    (QueueServerModel.init 1 0 1 2).get_avg_time_in_system = 0 ∧
    ((QueueServerModel.init 3 0 1 2).run [none, none]).get_avg_time_in_queue = 0 ∧
    ((QueueServerModel.init 3 0 1 2).run [none, none]).get_avg_time_in_system = 0 :=
  avg_queries_zero_when_no_tasks (QueueServerModel.init 1 0 1 2) rfl 3 0 1 2 [none, none] rfl

/-- C10: `ServerAgent.step` is total by construction; an idle server with
an empty queue is returned unchanged together with an unchanged store, the
decrement branch runs only under the double guard `busy and current_task`
(so a server that is not busy-with-a-task changes no task's
`remaining_service_time`), and at most one task is dequeued per server per
step (the queue shrinks by at most one element). -/
theorem server_step_safe (s : ServerAgent) (ts : List TaskAgent) (c : Int) :
    (s.busy = false → s.queue = [] → s.step ts c = (s, ts)) ∧
    ((s.busy && s.current_task.isSome) = false →
      ((s.step ts c).2).map (fun t => t.remaining_service_time) =
        ts.map (fun t => t.remaining_service_time)) ∧
    s.queue.length ≤ (s.step ts c).1.queue.length + 1 := by
  refine ⟨?_, ?_, step_queue_le s ts c⟩
  · intro hb hq
    rw [step_eq, serve_tick_skip (by simp [hb]), dequeue_tick_nil hq]
  · intro hg
    rw [step_eq, dequeue_tick_map (fun t => t.remaining_service_time) (fun _ _ _ => rfl),
      serve_tick_skip hg]

/-- C10 witness: the freshly constructed server 0 with an empty store. -/
theorem server_step_safe_witness :
    (ServerAgent.init 0).step [] 0 = (ServerAgent.init 0, []) ∧
    (((ServerAgent.init 0).step [] 0).2).map (fun t => t.remaining_service_time) =
      ([] : List TaskAgent).map (fun t => t.remaining_service_time) :=
  ⟨(server_step_safe (ServerAgent.init 0) [] 0).1 rfl rfl,
   (server_step_safe (ServerAgent.init 0) [] 0).2.1 rfl⟩

/-- C5: on every run, every server is busy exactly when its current-task
slot is occupied, and `begin_service` (the assignment of a new task)
establishes the equivalence unconditionally; every reachable state,
including the constructed one and each intermediate post-step state,
satisfies the invariant. -/
theorem busy_iff_current_task :
    (∀ (n : Int) (r sr : ℚ) (ms : Int) (stream : List (Option ℚ)),
      (((QueueServerModel.init n r sr ms).run stream).servers.all
        (fun s => s.busy == s.current_task.isSome)) = true) ∧
    (∀ (s : ServerAgent) (uid : Int) (ts : List TaskAgent) (c : Int),
      (s.begin_service uid ts c).1.busy = ((s.begin_service uid ts c).1.current_task.isSome)) := by
  constructor
  · intro n r sr ms stream
    rw [List.all_eq_true]
    intro s hs
    simpa using run_busyInv n r sr ms stream s hs
  · intro s uid ts c
    rfl

/-- C6 counterexample: an arrival whose exponential sample is `0` (a value
`random.expovariate` attains when `random.random()` returns `0.0`) creates
a task with `initial_service_time = 0`: the floored sample is not clamped
to a minimum of 1. -/
theorem service_time_zero_cex :
    sampledServiceTime 0 = 0 ∧
    ((QueueServerModel.init 1 1 1 5).step (some 0)).tasks.map
      (fun t => t.initial_service_time) = [0] := by
  constructor
  · rfl
  · decide

/-- C6 (corrected): in the exponential mode every created task has
`initial_service_time` equal to the sampled value floored to an integer,
with no clamp: the arrival step appends exactly one task whose initial
service time is the bare floor of the sample, so any sample below 1
produces a zero (or, for hypothetical negative samples, negative) initial
service time. -/
theorem service_time_floor_unclamped (m : QueueServerModel) (x : ℚ) :
    ((m.step (some x)).tasks.map (fun t => t.initial_service_time)) =
      m.tasks.map (fun t => t.initial_service_time) ++ [sampledServiceTime x] := by
  have h := step_tasks_map_key_some m x
  have h2 := congrArg (List.map (fun p : Int × Int × Int => p.2.1)) h
  simpa [List.map_map, Function.comp, taskKey, QueueServerModel.newTask] using h2

/-- C3 code-bug evaluation: with one server, an arrival at step 0 of
service time 2 and two further empty steps, exactly one task has been
finalized (`total_tasks_served` sums to 1) and its sojourn is
`completion - arrival = 1 - 0 = 1`, yet `total_time_in_system = 3`: the
statistics loop re-adds `current_step - arrival_time` for every
ever-assigned task at every step (0 at step 0, 1 at step 1, 2 at step 2)
instead of adding once at finalization, contradicting the loop's own
comment that it updates the times for completed tasks. -/
theorem stats_accumulate_every_step_eval :
    ((QueueServerModel.init 1 1 1 10).run [some 2, none, none]).total_time_in_system = 3 ∧
    (((QueueServerModel.init 1 1 1 10).run [some 2, none, none]).servers.map
      (fun s => s.total_tasks_served)).sum = 1 ∧
    ((QueueServerModel.init 1 1 1 10).run [some 2, none, none]).total_queue_wait_time = 0 := by
  decide

/-- C4 counterexample: after the arrival step of a single task of service
time 2 (not yet finalized), `total_tasks` is already 1 while the servers'
`total_tasks_served` sum to 0, refuting the claimed equality and showing
`total_tasks` is incremented at arrival. -/
theorem tasks_served_sum_cex :
    ((QueueServerModel.init 1 1 1 5).step (some 2)).total_tasks = 1 ∧
    (((QueueServerModel.init 1 1 1 5).step (some 2)).servers.map
      (fun s => s.total_tasks_served)).sum = 0 := by
  decide

/-- C4 (corrected): `total_tasks` counts arrivals, not finalizations: at
every point of every run it equals the number of tasks created so far, it
increases by exactly one on every arrival step and is unchanged by a step
without arrival; consequently it is the denominator of the average queries
even while arrived tasks are still unfinished, and the sum of
`total_tasks_served` (incremented only at finalization) can lag behind
it. -/
theorem total_tasks_counts_arrivals :
    (∀ (n : Int) (r sr : ℚ) (ms : Int) (stream : List (Option ℚ)),
      ((QueueServerModel.init n r sr ms).run stream).total_tasks =
        ((QueueServerModel.init n r sr ms).run stream).tasks.length) ∧
    (∀ (m : QueueServerModel) (x : ℚ), (m.step (some x)).total_tasks = m.total_tasks + 1) ∧
    (∀ (m : QueueServerModel), (m.step none).total_tasks = m.total_tasks) := by
  refine ⟨?_, step_total_tasks_some, step_total_tasks_none⟩
  intro n r sr ms stream
  suffices hgen : ∀ (stream2 : List (Option ℚ)) (m : QueueServerModel),
      m.total_tasks = m.tasks.length →
      (m.run stream2).total_tasks = (m.run stream2).tasks.length from
    hgen stream _ rfl
  intro stream2
  induction stream2 with
  | nil => intro m h; exact h
  | cons a rest ih =>
      intro m h
      rw [run_cons]
      refine ih _ ?_
      rcases a with _ | x
      · rw [step_total_tasks_none, step_tasks_length_none, h]
      · rw [step_total_tasks_some, step_tasks_length_some, h]
        simp

theorem dispatch_idle {m : QueueServerModel} {t0 : TaskAgent} {srv : ServerAgent}
    (hfind : find_available_server m.servers = some srv) :
    m.dispatch t0 =
      { m with
        total_tasks := m.total_tasks + 1,
        servers := updateServerList m.servers srv.unique_id
          (fun _ => { srv with busy := true, current_task := some t0.unique_id }),
        tasks := updateTask (m.tasks ++ [t0]) t0.unique_id
          (assignF srv.unique_id m.current_step) } := by
  simp [QueueServerModel.dispatch, hfind, ServerAgent.begin_service]

theorem dispatch_queue {m : QueueServerModel} {t0 : TaskAgent} {srv : ServerAgent}
    (hfind : find_available_server m.servers = none)
    (hmin : minByQueue m.servers = some srv) :
    m.dispatch t0 =
      { m with
        total_tasks := m.total_tasks + 1,
        tasks := m.tasks ++ [t0],
        servers := updateServerList m.servers srv.unique_id
          (fun s => { s with queue := s.queue ++ [t0.unique_id] }) } := by
  simp [QueueServerModel.dispatch, hfind, hmin]

/-- C1 counterexample: a task that arrives at step 0 (clock 0) with
service time 2 is dispatched directly to the idle server and is already
decremented by that same step's server tick: after the arrival step its
`remaining_service_time` is 1, not 2, refuting that a dispatched task is
never decremented at its dispatch step. -/
theorem dispatched_task_decremented_same_step_cex :
    (QueueServerModel.init 1 1 1 5).current_step = 0 ∧
    ((QueueServerModel.init 1 1 1 5).step (some 2)).tasks.map
      (fun t => (t.arrival_time, t.initial_service_time, t.remaining_service_time)) =
      [(0, 2, 1)] := by
  constructor
  · rfl
  · decide

/-- C1 (corrected): arrival+dispatch for a step still completes strictly
before that step's server ticks, but the consequence is the opposite of
the claimed one: a task dispatched directly to an idle server at step t is
decremented by that same step's tick, ending the arrival step with
`remaining_service_time = sampledServiceTime x - 1` (only a task that
waits in a queue receives its first decrement the step after its service
begins).  The hypotheses — an idle server is found, the fresh task id (the
current clock value) is not already a stored task's id nor any server's
current task, and server ids are duplicate-free — hold in every state
reachable from the constructor. -/
theorem dispatched_task_first_decrement (m : QueueServerModel) (x : ℚ) (srv : ServerAgent)
    (hfind : find_available_server m.servers = some srv)
    (hfresh : ∀ t ∈ m.tasks, t.unique_id ≠ m.current_step)
    (hct : ∀ s ∈ m.servers, s.current_task ≠ some m.current_step)
    (hids : (m.servers.map (fun s => s.unique_id)).Nodup) :
    (getTask (m.step (some x)).tasks m.current_step).map
      (fun t => t.remaining_service_time) = some (sampledServiceTime x - 1) := by
  obtain ⟨p, q, hdec, hpb⟩ := find?_decomp (fun s => !s.busy) m.servers srv
    (show m.servers.find? (fun s => !s.busy) = some srv from hfind)
  rw [step_some_tasks, dispatch_idle hfind]
  dsimp only
  rw [hdec] at hids ⊢
  rw [updateServerList_decomp _ hids]
  have ht : (getTask
      (updateTask (m.tasks ++ [m.newTask x]) (m.newTask x).unique_id
        (assignF srv.unique_id m.current_step))
      m.current_step).map (fun t => t.remaining_service_time) =
      some (sampledServiceTime x) := by
    rw [getTask_map_rem_updateTask (f := assignF srv.unique_id m.current_step)
      (fun _ => rfl) (fun _ => rfl)]
    have hlast : getTask (m.tasks ++ [m.newTask x]) (m.newTask x).unique_id =
        some (m.newTask x) :=
      getTask_append_last (fun t htm => hfresh t htm)
    rw [show (m.newTask x).unique_id = m.current_step from rfl] at hlast
    rw [hlast]
    rfl
  have h1 : ∀ s ∈ p, s.current_task ≠ some m.current_step := fun s hs =>
    hct s (by rw [hdec]; exact List.mem_append.mpr (Or.inl hs))
  have h2 : ∀ s ∈ q, s.current_task ≠ some m.current_step := fun s hs =>
    hct s (by rw [hdec]; exact List.mem_append.mpr (Or.inr (List.mem_cons.mpr (Or.inr hs))))
  exact stepAllServers_remaining_own h1 h2 rfl rfl ht

/-- First-minimum specification of Python's `min` over servers with
strictly increasing ids: the fold result is a member, its queue is
shortest, and among equal-length queues it has the least id. -/
theorem foldl_min_spec :
    ∀ (l : List ServerAgent) (a : ServerAgent),
      List.Pairwise (fun s1 s2 => s1.unique_id < s2.unique_id) (a :: l) →
      (l.foldl pickShorter a) ∈ a :: l ∧
      (∀ s2 ∈ a :: l, (l.foldl pickShorter a).queue.length ≤ s2.queue.length) ∧
      (∀ s2 ∈ a :: l, s2.queue.length = (l.foldl pickShorter a).queue.length →
        (l.foldl pickShorter a).unique_id ≤ s2.unique_id) := by
  intro l
  induction l with
  | nil =>
      intro a _
      refine ⟨by simp, ?_, ?_⟩
      · intro s2 hs2
        rw [List.mem_singleton.mp hs2, List.foldl_nil]
      · intro s2 hs2 _
        rw [List.mem_singleton.mp hs2, List.foldl_nil]
  | cons b l2 ih =>
      intro a hp
      rw [List.foldl_cons]
      rw [List.pairwise_cons] at hp
      obtain ⟨ha, hp2⟩ := hp
      have hb2 := (List.pairwise_cons.mp hp2).1
      have hp3 := (List.pairwise_cons.mp hp2).2
      have hpnew : List.Pairwise (fun s1 s2 => s1.unique_id < s2.unique_id)
          (pickShorter a b :: l2) := by
        rw [List.pairwise_cons]
        refine ⟨?_, hp3⟩
        intro s hs
        unfold pickShorter
        by_cases hab : b.queue.length < a.queue.length
        · rw [if_pos hab]
          exact hb2 s hs
        · rw [if_neg hab]
          exact ha s (by simp [hs])
      obtain ⟨hmem, hmin, htie⟩ := ih (pickShorter a b) hpnew
      by_cases hab : b.queue.length < a.queue.length
      · have hpb : pickShorter a b = b := by
          unfold pickShorter
          rw [if_pos hab]
        rw [hpb] at hmem hmin htie ⊢
        refine ⟨?_, ?_, ?_⟩
        · rcases List.mem_cons.mp hmem with he | hm
          · rw [he]
            simp
          · simp [hm]
        · intro s2 hs2
          rcases List.mem_cons.mp hs2 with he | hm
          · have h1 : (l2.foldl pickShorter b).queue.length ≤ b.queue.length := hmin b (by simp)
            rw [he]
            omega
          · exact hmin s2 hm
        · intro s2 hs2 hlen
          rcases List.mem_cons.mp hs2 with he | hm
          · exfalso
            have h1 : (l2.foldl pickShorter b).queue.length ≤ b.queue.length := hmin b (by simp)
            rw [he] at hlen
            omega
          · exact htie s2 hm hlen
      · have hpb : pickShorter a b = a := by
          unfold pickShorter
          rw [if_neg hab]
        rw [hpb] at hmem hmin htie ⊢
        have hra : (l2.foldl pickShorter a).queue.length ≤ a.queue.length := hmin a (by simp)
        refine ⟨?_, ?_, ?_⟩
        · rcases List.mem_cons.mp hmem with he | hm
          · rw [he]
            simp
          · simp [hm]
        · intro s2 hs2
          rcases List.mem_cons.mp hs2 with he | hm
          · rw [he]
            exact hra
          · rcases List.mem_cons.mp hm with he2 | hm2
            · rw [he2]
              omega
            · exact hmin s2 (by simp [hm2])
        · intro s2 hs2 hlen
          rcases List.mem_cons.mp hs2 with he | hm
          · have hlen2 := hlen
            rw [he] at hlen2
            rw [he]
            exact htie a (by simp) hlen2
          · rcases List.mem_cons.mp hm with he2 | hm2
            · have hlen2 : a.queue.length = (l2.foldl pickShorter a).queue.length := by
                rw [he2] at hlen
                omega
              have hia : (l2.foldl pickShorter a).unique_id ≤ a.unique_id :=
                htie a (by simp) hlen2
              have hiab : a.unique_id < b.unique_id := ha b (by simp)
              rw [he2]
              omega
            · exact htie s2 (by simp [hm2]) hlen

theorem minByQueue_spec {l : List ServerAgent} {srv : ServerAgent}
    (hp : List.Pairwise (fun s1 s2 => s1.unique_id < s2.unique_id) l)
    (h : minByQueue l = some srv) :
    srv ∈ l ∧ (∀ s2 ∈ l, srv.queue.length ≤ s2.queue.length) ∧
    (∀ s2 ∈ l, s2.queue.length = srv.queue.length → srv.unique_id ≤ s2.unique_id) := by
  cases l with
  | nil => simp [minByQueue] at h
  | cons a l2 =>
      have h2 : l2.foldl pickShorter a = srv := by simpa [minByQueue] using h
      rw [← h2]
      exact foldl_min_spec l2 a hp

theorem dispatch_map_id (m : QueueServerModel) (t0 : TaskAgent) :
    ((m.dispatch t0).servers).map (fun s => s.unique_id) =
      m.servers.map (fun s => s.unique_id) := by
  rcases optShape (find_available_server m.servers) with hf | ⟨srv, hf⟩
  · rcases optShape (minByQueue m.servers) with h2 | ⟨srv2, h2⟩
    · simp [QueueServerModel.dispatch, hf, h2]
    · rw [dispatch_queue hf h2]
      dsimp only
      exact updateServerList_map_id (fun s _ => rfl)
  · rw [dispatch_idle hf]
    dsimp only
    exact updateServerList_map_id (fun s hs => by simp [hs])

theorem step_model_map_id (m : QueueServerModel) (a : Option ℚ) :
    ((m.step a).servers).map (fun s => s.unique_id) =
      m.servers.map (fun s => s.unique_id) := by
  rcases a with _ | x
  · rw [step_none_servers, stepAllServers_map_id]
  · rw [step_some_servers, stepAllServers_map_id, dispatch_map_id]

theorem run_servers_map_id (n : Int) (r sr : ℚ) (ms : Int) (stream : List (Option ℚ)) :
    (((QueueServerModel.init n r sr ms).run stream).servers).map (fun s => s.unique_id) =
      List.range n.toNat := by
  suffices hgen : ∀ (stream2 : List (Option ℚ)) (m : QueueServerModel),
      ((m.run stream2).servers).map (fun s => s.unique_id) =
        m.servers.map (fun s => s.unique_id) by
    rw [hgen]
    show ((List.range n.toNat).map ServerAgent.init).map (fun s => s.unique_id) =
      List.range n.toNat
    rw [List.map_map]
    have hcomp : ((fun (s : ServerAgent) => s.unique_id) ∘ ServerAgent.init) =
        fun (i : Nat) => i := by
      funext i
      rfl
    rw [hcomp]
    simp
  intro stream2
  induction stream2 with
  | nil => intro m; rfl
  | cons a rest ih =>
      intro m
      rw [run_cons, ih, step_model_map_id]

theorem run_servers_pairwise (n : Int) (r sr : ℚ) (ms : Int) (stream : List (Option ℚ)) :
    List.Pairwise (fun s1 s2 => s1.unique_id < s2.unique_id)
      ((QueueServerModel.init n r sr ms).run stream).servers := by
  have h := run_servers_map_id n r sr ms stream
  have hpr : List.Pairwise (fun a b : Nat => a < b) (List.range n.toNat) :=
    List.pairwise_lt_range _
  rw [← h] at hpr
  exact List.pairwise_map.mp hpr

/-- C2: the dispatch policy.  Part 1: along every run from the
constructor the server list keeps strictly increasing ids, so the linear
scans below are ascending-id scans.  Part 2: on such a server list, with
the fresh task id unused (true in every reachable state): if
`find_available_server` returns a server, that server is idle, has the
least id among idle servers, everything scanned before it is busy, and
dispatch begins service on exactly that server — it becomes busy holding
the new task, and the task immediately records the server's id and a zero
queue wait.  If no server is idle, every server is busy, Python's `min`
returns a server whose queue is shortest with ties broken by least id
(first minimum of the stable scan), and dispatch appends the new task,
still un-started, to exactly that server's queue, leaving the task store
otherwise equal to the old store plus the untouched new task. -/
theorem dispatch_policy :
    (∀ (n : Int) (r sr : ℚ) (ms : Int) (stream : List (Option ℚ)),
      List.Pairwise (fun s1 s2 => s1.unique_id < s2.unique_id)
        ((QueueServerModel.init n r sr ms).run stream).servers) ∧
    (∀ (m : QueueServerModel) (x : ℚ),
      List.Pairwise (fun s1 s2 => s1.unique_id < s2.unique_id) m.servers →
      (∀ t ∈ m.tasks, t.unique_id ≠ m.current_step) →
      ((∀ srv, find_available_server m.servers = some srv →
          srv.busy = false ∧
          (∀ s2 ∈ m.servers, s2.busy = false → srv.unique_id ≤ s2.unique_id) ∧
          (∃ p2 q2, m.servers = p2 ++ srv :: q2 ∧ (∀ s2 ∈ p2, s2.busy = true) ∧
            (m.dispatch (m.newTask x)).servers =
              p2 ++ { srv with busy := true, current_task := some (m.newTask x).unique_id } :: q2) ∧
          getTask (m.dispatch (m.newTask x)).tasks (m.newTask x).unique_id =
            some { m.newTask x with assigned_server := some srv.unique_id, queue_wait_time := 0 }) ∧
       (find_available_server m.servers = none →
          (∀ s2 ∈ m.servers, s2.busy = true) ∧
          (∀ srv, minByQueue m.servers = some srv →
            (∀ s2 ∈ m.servers, srv.queue.length ≤ s2.queue.length) ∧
            (∀ s2 ∈ m.servers, s2.queue.length = srv.queue.length →
              srv.unique_id ≤ s2.unique_id) ∧
            (∃ p2 q2, m.servers = p2 ++ srv :: q2 ∧
              (m.dispatch (m.newTask x)).servers =
                p2 ++ { srv with queue := srv.queue ++ [(m.newTask x).unique_id] } :: q2) ∧
            (m.dispatch (m.newTask x)).tasks = m.tasks ++ [m.newTask x])))) := by
  constructor
  · exact run_servers_pairwise
  · intro m x hp hfresh
    have hids : (m.servers.map (fun s => s.unique_id)).Nodup :=
      (List.pairwise_map.mpr hp).imp Nat.ne_of_lt
    constructor
    · intro srv hfind
      have hsrvb : srv.busy = false := by simpa using List.find?_some hfind
      obtain ⟨p2, q2, hdec, hpb⟩ := find?_decomp (fun s => !s.busy) m.servers srv
        (show m.servers.find? (fun s => !s.busy) = some srv from hfind)
      refine ⟨hsrvb, ?_, ?_, ?_⟩
      · intro s2 hs2 hs2b
        rw [hdec] at hs2
        rcases List.mem_append.mp hs2 with hmp | hmq
        · exact absurd hs2b (by simpa using hpb s2 hmp)
        · rcases List.mem_cons.mp hmq with he | hmq2
          · rw [he]
          · rw [hdec] at hp
            have h3 := (List.pairwise_append.mp hp).2.1
            exact le_of_lt ((List.pairwise_cons.mp h3).1 s2 hmq2)
      · refine ⟨p2, q2, hdec, ?_, ?_⟩
        · intro s2 hmp
          simpa using hpb s2 hmp
        · rw [dispatch_idle hfind]
          dsimp only
          rw [hdec] at hids ⊢
          exact updateServerList_decomp _ hids
      · rw [dispatch_idle hfind]
        dsimp only
        rw [getTask_updateTask_self (f := assignF srv.unique_id m.current_step) (fun _ => rfl)]
        rw [getTask_append_last (fun t htm => hfresh t htm)]
        simp [assignF, QueueServerModel.newTask]
    · intro hnone
      have hall : ∀ s2 ∈ m.servers, s2.busy = true := by
        intro s2 hs2
        simpa using List.find?_eq_none.mp hnone s2 hs2
      refine ⟨hall, ?_⟩
      intro srv hmin
      obtain ⟨hmem, hminlen, htie⟩ := minByQueue_spec hp hmin
      obtain ⟨p2, q2, hdec⟩ := List.append_of_mem hmem
      refine ⟨hminlen, htie, ⟨p2, q2, hdec, ?_⟩, ?_⟩
      · rw [dispatch_queue hnone hmin]
        dsimp only
        rw [hdec] at hids ⊢
        exact updateServerList_decomp _ hids
      · rw [dispatch_queue hnone hmin]

/-- C2 witness: the freshly constructed two-server model with both
servers idle; the first arrival is assigned to server 0 and immediately
records `assigned_server = 0` and a zero queue wait. -/
theorem dispatch_policy_witness :
    getTask ((QueueServerModel.init 2 1 1 5).dispatch
        ((QueueServerModel.init 2 1 1 5).newTask 3)).tasks
      ((QueueServerModel.init 2 1 1 5).newTask 3).unique_id =
      some { (QueueServerModel.init 2 1 1 5).newTask 3 with
        assigned_server := some (ServerAgent.init 0).unique_id, queue_wait_time := 0 } := by
  have h := (dispatch_policy.2 (QueueServerModel.init 2 1 1 5) 3 (by decide)
    (by intro t htm; exact absurd htm (List.not_mem_nil t))).1 (ServerAgent.init 0) (by decide)
  exact h.2.2.2

/-- C1 witness: the freshly constructed single-server model with a sample
of 2; the dispatched task ends the arrival step with remaining time 1. -/
theorem dispatched_task_first_decrement_witness :
    (getTask ((QueueServerModel.init 1 1 1 5).step (some 2)).tasks
        (QueueServerModel.init 1 1 1 5).current_step).map
      (fun t => t.remaining_service_time) = some (sampledServiceTime 2 - 1) ∧
    sampledServiceTime 2 - 1 = 1 := by
  constructor
  · exact dispatched_task_first_decrement (QueueServerModel.init 1 1 1 5) 2 (ServerAgent.init 0)
      (by decide) (by intro t htm; exact absurd htm (List.not_mem_nil t)) (by decide) (by decide)
  · decide

/-- C7 counterexample: with an exponential sample of 0 the created task
has `remaining_service_time = 0`, and the dispatch step's own server tick
decrements it to `-1` before completing the service, so after the arrival
step the stored task has negative remaining service time. -/
theorem remaining_negative_cex :
    ((QueueServerModel.init 1 1 1 5).step (some 0)).tasks.map
      (fun t => t.remaining_service_time) = [-1] := by
  decide

/-! The remaining-service-time invariant: machinery for C7. -/

theorem storeOK_mono {R1 R2 : List Int} {ts : List TaskAgent}
    (hsub : ∀ u, u ∈ R2 → u ∈ R1) (h : storeOK R1 ts) : storeOK R2 ts := by
  intro t htm
  exact ⟨(h t htm).1, fun hm => (h t htm).2 (hsub _ hm)⟩

theorem mem_updateTask {ts : List TaskAgent} {uid : Int} {f : TaskAgent → TaskAgent}
    {t2 : TaskAgent} (h : t2 ∈ updateTask ts uid f) :
    (∃ t0 ∈ ts, t0.unique_id = uid ∧ t2 = f t0) ∨ (t2 ∈ ts ∧ t2.unique_id ≠ uid) := by
  unfold updateTask at h
  obtain ⟨t0, ht0, he⟩ := List.mem_map.mp h
  by_cases hid : (t0.unique_id == uid) = true
  · exact Or.inl ⟨t0, ht0, by simpa using hid, by rw [← he, if_pos hid]⟩
  · refine Or.inr ⟨by rw [← he, if_neg hid]; exact ht0, ?_⟩
    rw [← he, if_neg hid]
    simpa using hid

theorem storeOK_updateTask {R : List Int} {ts : List TaskAgent} {u : Int}
    {f : TaskAgent → TaskAgent} (hf : ∀ t, (f t).unique_id = t.unique_id)
    (hf2 : ∀ t, (f t).remaining_service_time = t.remaining_service_time)
    (h : storeOK R ts) : storeOK R (updateTask ts u f) := by
  intro t2 ht2
  rcases mem_updateTask ht2 with ⟨t0, ht0, _, he⟩ | ⟨ht0, _⟩
  · rw [he, hf2, hf]
    exact h t0 ht0
  · exact h t2 ht0

theorem mem_uid_unique {ts : List TaskAgent}
    (hsn : (ts.map (fun t => t.unique_id)).Nodup) {t1 t2 : TaskAgent}
    (h1 : t1 ∈ ts) (h2 : t2 ∈ ts) (he : t1.unique_id = t2.unique_id) : t1 = t2 :=
  List.inj_on_of_nodup_map hsn h1 h2 he

theorem storeOK_decr_complete {R : List Int} {ts : List TaskAgent} {uid : Int}
    (hok : storeOK (uid :: R) ts) (huid : uid ∉ R) :
    storeOK R (updateTask ts uid decrServiceF) := by
  intro t2 ht2
  rcases mem_updateTask ht2 with ⟨t0, ht0, hu0, he⟩ | ⟨ht0, hne⟩
  · have h1 : 1 ≤ t0.remaining_service_time := (hok t0 ht0).2 (by rw [hu0]; simp)
    constructor
    · rw [he]
      show 0 ≤ t0.remaining_service_time - 1
      omega
    · intro hm
      rw [he] at hm ⊢
      exact absurd (by rw [show (decrServiceF t0).unique_id = uid from by rw [← hu0]; rfl] at hm; exact hm) huid
  · refine ⟨(hok t2 ht0).1, fun hm => (hok t2 ht0).2 (by simp [hm])⟩

theorem storeOK_decr_continue {R : List Int} {ts : List TaskAgent} {uid : Int} {t : TaskAgent}
    (hsn : (ts.map (fun t2 => t2.unique_id)).Nodup)
    (ht : getTask ts uid = some t)
    (hok : storeOK (uid :: R) ts)
    (h2 : 2 ≤ t.remaining_service_time) :
    storeOK (uid :: R) (updateTask ts uid decrServiceF) := by
  obtain ⟨htm, htuid⟩ := getTask_mem ht
  intro t2 ht2
  rcases mem_updateTask ht2 with ⟨t0, ht0, hu0, he⟩ | ⟨ht0, hne⟩
  · have ht0t : t0 = t := mem_uid_unique hsn ht0 htm (by rw [hu0, htuid])
    subst ht0t
    constructor
    · rw [he]
      show 0 ≤ t0.remaining_service_time - 1
      omega
    · intro _
      rw [he]
      show 1 ≤ t0.remaining_service_time - 1
      omega
  · exact hok t2 ht0

/-- One server tick preserves the remaining-time invariant relative to
its own references plus any disjoint ambient reference list `R`. -/
theorem step_ok {s : ServerAgent} {ts : List TaskAgent} {c : Int} {R : List Int}
    (hnd : (serverRefs s ++ R).Nodup)
    (hsn : (ts.map (fun t => t.unique_id)).Nodup)
    (hok : storeOK (serverRefs s ++ R) ts) :
    storeOK (serverRefs (s.step ts c).1 ++ R) (s.step ts c).2 := by
  rw [step_eq]
  rcases (Bool.eq_false_or_eq_true s.busy).symm with hb | hb
  · rw [serve_tick_skip (by simp [hb])]
    rcases listShape s.queue with hq | ⟨u, rest, hq⟩
    · rw [dequeue_tick_nil hq]
      exact hok
    · rw [dequeue_tick_pop hb hq]
      dsimp only [ServerAgent.begin_service]
      refine storeOK_updateTask (fun _ => rfl) (fun _ => rfl) ?_
      refine storeOK_mono ?_ hok
      intro v hv
      rw [serverRefs_some rfl] at hv
      simp only [serverRefs, hq]
      rcases optShape s.current_task with hct | ⟨w, hct⟩ <;> rw [hct] <;> simp at hv ⊢ <;> tauto
  · rcases optShape s.current_task with hct | ⟨uid, hct⟩
    · rw [serve_tick_skip (by simp [hct]), dequeue_tick_busy hb]
      exact hok
    · have hrefs : serverRefs s = uid :: s.queue := serverRefs_some hct
      rcases optShape (getTask ts uid) with htn | ⟨t, hts⟩
      · have hid : updateTask ts uid decrServiceF = ts := updateTask_eq_of_forall (by
          intro t2 htm2
          simpa using List.find?_eq_none.mp htn t2 htm2)
        have hrem : remAfterDecr ts uid = 1 := remAfterDecr_eq_none htn
        rw [serve_tick_continue hb hct (by rw [hrem]; omega), hid, dequeue_tick_busy hb]
        exact hok
      · obtain ⟨htm, htuid⟩ := getTask_mem hts
        have h1 : 1 ≤ t.remaining_service_time := (hok t htm).2 (by rw [htuid, hrefs]; simp)
        have hra : remAfterDecr ts uid = t.remaining_service_time - 1 := remAfterDecr_eq_some hts
        have hokc : storeOK (uid :: (s.queue ++ R)) ts := by
          refine storeOK_mono ?_ hok
          intro v hv
          rw [hrefs]
          simpa using hv
        have huidq : uid ∉ s.queue ++ R := by
          rw [hrefs] at hnd
          exact (List.nodup_cons.mp (by simpa using hnd)).1
        by_cases hr : remAfterDecr ts uid ≤ 0
        · rw [serve_tick_complete hb hct hr]
          obtain ⟨hcb, hcc, hcq, _⟩ :=
            @complete_service_proj s (updateTask ts uid decrServiceF) uid hct
          have hok2 : storeOK (s.queue ++ R) (updateTask ts uid decrServiceF) :=
            storeOK_decr_complete hokc huidq
          rcases listShape (s.complete_service (updateTask ts uid decrServiceF)).queue with
            hq | ⟨u2, rest2, hq⟩
          · rw [dequeue_tick_nil hq]
            have hrn : serverRefs (s.complete_service (updateTask ts uid decrServiceF)) =
                s.queue := by
              rw [serverRefs_none hcc, hcq]
            rw [hrn]
            exact hok2
          · rw [dequeue_tick_pop hcb hq]
            dsimp only [ServerAgent.begin_service]
            have hsq : s.queue = u2 :: rest2 := by rw [← hcq, hq]
            refine storeOK_updateTask (fun _ => rfl) (fun _ => rfl) ?_
            refine storeOK_mono ?_ hok2
            intro v hv
            rw [serverRefs_some rfl] at hv
            rw [hsq]
            simpa using hv
        · rw [serve_tick_continue hb hct hr, dequeue_tick_busy hb]
          have h2 : 2 ≤ t.remaining_service_time := by omega
          have := storeOK_decr_continue hsn hts hokc h2
          refine storeOK_mono ?_ this
          intro v hv
          rw [hrefs] at hv
          simpa using hv

theorem step_store_map_uid (s : ServerAgent) (ts : List TaskAgent) (c : Int) :
    ((s.step ts c).2).map (fun t => t.unique_id) = ts.map (fun t => t.unique_id) :=
  step_map (fun t => t.unique_id) (fun _ => rfl) (fun _ _ _ => rfl) s ts c

/-- Stepping every server in order preserves the remaining-time invariant
relative to their (unaliased) references plus a disjoint ambient list. -/
theorem stepAllServers_ok :
    ∀ (l : List ServerAgent) (ts : List TaskAgent) (c : Int) (R : List Int),
      ((l.flatMap serverRefs) ++ R).Nodup →
      (ts.map (fun t => t.unique_id)).Nodup →
      storeOK (l.flatMap serverRefs ++ R) ts →
      storeOK ((stepAllServers l ts c).1.flatMap serverRefs ++ R) (stepAllServers l ts c).2 := by
  intro l
  induction l with
  | nil =>
      intro ts c R _ _ hok
      exact hok
  | cons s l2 ih =>
      intro ts c R hnd hsn hok
      rw [stepAllServers_cons]
      have hnd1 : (serverRefs s ++ (l2.flatMap serverRefs ++ R)).Nodup := by
        rw [← List.append_assoc]
        simpa [List.flatMap_cons] using hnd
      have hok1 : storeOK (serverRefs s ++ (l2.flatMap serverRefs ++ R)) ts := by
        refine storeOK_mono ?_ hok
        intro v hv
        simp only [List.flatMap_cons, List.mem_append] at hv ⊢
        tauto
      have h1 := step_ok (c := c) hnd1 hsn hok1
      have hsub := serverRefs_step_sublist s ts c
      have hnd2 : (serverRefs (s.step ts c).1 ++ (l2.flatMap serverRefs ++ R)).Nodup :=
        hnd1.sublist (hsub.append (List.Sublist.refl _))
      have hperm : List.Perm (serverRefs (s.step ts c).1 ++ (l2.flatMap serverRefs ++ R))
          (l2.flatMap serverRefs ++ (serverRefs (s.step ts c).1 ++ R)) := by
        rw [← List.append_assoc, ← List.append_assoc]
        exact List.perm_append_comm.append_right R
      have hnd3 : (l2.flatMap serverRefs ++ (serverRefs (s.step ts c).1 ++ R)).Nodup :=
        hperm.nodup_iff.mp hnd2
      have hok2 : storeOK (l2.flatMap serverRefs ++ (serverRefs (s.step ts c).1 ++ R))
          ((s.step ts c).2) := by
        refine storeOK_mono ?_ h1
        intro v hv
        simp only [List.mem_append] at hv ⊢
        tauto
      have hsn2 : (((s.step ts c).2).map (fun t => t.unique_id)).Nodup := by
        rw [step_store_map_uid]
        exact hsn
      have h2 := ih _ c _ hnd3 hsn2 hok2
      refine storeOK_mono ?_ h2
      intro v hv
      simp only [List.flatMap_cons, List.mem_append] at hv ⊢
      tauto

/-- The references after a dispatch: either a permutation that adds the
new task's id on top of the old references (some server now holds or
queues it), or exactly the old references (empty server list, where
Python's `min([])` would raise). -/
theorem foldl_pickShorter_mem : ∀ (l : List ServerAgent) (a : ServerAgent),
    l.foldl pickShorter a ∈ a :: l := by
  intro l
  induction l with
  | nil => simp
  | cons b l2 ih =>
      intro a
      rw [List.foldl_cons]
      rcases List.mem_cons.mp (ih (pickShorter a b)) with he | hm
      · rw [he]
        unfold pickShorter
        by_cases hab : b.queue.length < a.queue.length
        · rw [if_pos hab]
          simp
        · rw [if_neg hab]
          simp
      · simp [hm]

theorem minByQueue_mem {l : List ServerAgent} {srv : ServerAgent}
    (h : minByQueue l = some srv) : srv ∈ l := by
  cases l with
  | nil => simp [minByQueue] at h
  | cons a l2 =>
      have h2 : l2.foldl pickShorter a = srv := by simpa [minByQueue] using h
      rw [← h2]
      exact foldl_pickShorter_mem l2 a

/-- The references after a dispatch: either a permutation that puts the
new task's id on top of the old references (some server now holds or
queues it), or exactly the old references (empty server list, where
Python's `min([])` would raise). -/
theorem dispatch_refs {m : QueueServerModel} {t0 : TaskAgent}
    (hids : (m.servers.map (fun s => s.unique_id)).Nodup)
    (hbusy : ∀ s ∈ m.servers, s.busy = s.current_task.isSome) :
    List.Perm (modelRefs (m.dispatch t0)) (t0.unique_id :: modelRefs m) ∨
    modelRefs (m.dispatch t0) = modelRefs m := by
  rcases optShape (find_available_server m.servers) with hf | ⟨srv, hf⟩
  · rcases optShape (minByQueue m.servers) with h2 | ⟨srv2, h2⟩
    · right
      rcases listShape m.servers with hnil | ⟨s0, l0, hcons⟩
      · simp [QueueServerModel.dispatch, hf, h2, modelRefs]
      · exfalso
        rw [hcons] at h2
        simp [minByQueue] at h2
    · left
      obtain ⟨p2, q2, hdec⟩ := List.append_of_mem (minByQueue_mem h2)
      rw [dispatch_queue hf h2]
      unfold modelRefs
      dsimp only
      rw [hdec] at hids ⊢
      rw [updateServerList_decomp _ hids]
      rw [List.flatMap_append, List.flatMap_append, List.flatMap_cons, List.flatMap_cons]
      have hrenq : serverRefs { srv2 with queue := srv2.queue ++ [t0.unique_id] } =
          serverRefs srv2 ++ [t0.unique_id] := by
        unfold serverRefs
        dsimp only
        rw [List.append_assoc]
      rw [hrenq]
      have h1 : p2.flatMap serverRefs ++ ((serverRefs srv2 ++ [t0.unique_id]) ++
            q2.flatMap serverRefs) =
          (p2.flatMap serverRefs ++ serverRefs srv2) ++ (t0.unique_id :: q2.flatMap serverRefs) := by
        simp [List.append_assoc]
      have h2eq : t0.unique_id :: (p2.flatMap serverRefs ++ (serverRefs srv2 ++
            q2.flatMap serverRefs)) =
          t0.unique_id :: ((p2.flatMap serverRefs ++ serverRefs srv2) ++ q2.flatMap serverRefs) := by
        simp [List.append_assoc]
      rw [h1, h2eq]
      exact List.perm_middle
  · left
    have hsb : srv.busy = false := by simpa using List.find?_some hf
    have hsmem : srv ∈ m.servers := List.mem_of_find?_eq_some hf
    have hsct : srv.current_task = none := by
      have h3 := hbusy srv hsmem
      rw [hsb] at h3
      rcases optShape srv.current_task with hn | ⟨u, hu⟩
      · exact hn
      · rw [hu] at h3
        simp at h3
    obtain ⟨p2, q2, hdec⟩ := List.append_of_mem hsmem
    rw [dispatch_idle hf]
    unfold modelRefs
    dsimp only
    rw [hdec] at hids ⊢
    rw [updateServerList_decomp _ hids]
    rw [List.flatMap_append, List.flatMap_append, List.flatMap_cons, List.flatMap_cons]
    have hrbeg : serverRefs { srv with busy := true, current_task := some t0.unique_id } =
        t0.unique_id :: srv.queue := serverRefs_some rfl
    rw [hrbeg, serverRefs_none hsct]
    have h1 : p2.flatMap serverRefs ++ ((t0.unique_id :: srv.queue) ++ q2.flatMap serverRefs) =
        p2.flatMap serverRefs ++ t0.unique_id :: (srv.queue ++ q2.flatMap serverRefs) := by
      simp
    have h2eq : t0.unique_id :: (p2.flatMap serverRefs ++ (srv.queue ++ q2.flatMap serverRefs)) =
        t0.unique_id :: (p2.flatMap serverRefs ++ (srv.queue ++ q2.flatMap serverRefs)) := rfl
    rw [h1]
    exact List.perm_middle

theorem stepAllServers_store_map_uid (l : List ServerAgent) (ts : List TaskAgent) (c : Int) :
    ((stepAllServers l ts c).2).map (fun t => t.unique_id) = ts.map (fun t => t.unique_id) := by
  induction l generalizing ts with
  | nil => rfl
  | cons s l ih => rw [stepAllServers_cons, ih, step_store_map_uid]

theorem dispatch_tasks_map_uid (m : QueueServerModel) (t0 : TaskAgent) :
    ((m.dispatch t0).tasks).map (fun t => t.unique_id) =
      m.tasks.map (fun t => t.unique_id) ++ [t0.unique_id] := by
  have h := congrArg (List.map (fun p : Int × Int × Int => p.1)) (dispatch_tasks_map_key m t0)
  simpa [List.map_map, Function.comp, taskKey] using h

theorem dispatch_tasks_mem {m : QueueServerModel} {t0 : TaskAgent} {t2 : TaskAgent}
    (h : t2 ∈ (m.dispatch t0).tasks) :
    ∃ t1, (t1 ∈ m.tasks ∨ t1 = t0) ∧ t2.unique_id = t1.unique_id ∧
      t2.remaining_service_time = t1.remaining_service_time := by
  have happ : ∀ t3 : TaskAgent, t3 ∈ m.tasks ++ [t0] →
      ∃ t1, (t1 ∈ m.tasks ∨ t1 = t0) ∧ t3.unique_id = t1.unique_id ∧
        t3.remaining_service_time = t1.remaining_service_time := by
    intro t3 ht3
    rcases List.mem_append.mp ht3 with h3 | h3
    · exact ⟨t3, Or.inl h3, rfl, rfl⟩
    · exact ⟨t0, Or.inr rfl, by rw [List.mem_singleton.mp h3], by rw [List.mem_singleton.mp h3]⟩
  rcases optShape (find_available_server m.servers) with hf | ⟨srv, hf⟩
  · rcases optShape (minByQueue m.servers) with h2 | ⟨srv2, h2⟩
    · refine happ t2 ?_
      simpa [QueueServerModel.dispatch, hf, h2] using h
    · rw [dispatch_queue hf h2] at h
      exact happ t2 (by simpa using h)
  · rw [dispatch_idle hf] at h
    dsimp only at h
    rcases mem_updateTask h with ⟨t1, ht1, _, he⟩ | ⟨ht1, _⟩
    · obtain ⟨t4, hm4, hu4, hr4⟩ := happ t1 ht1
      exact ⟨t4, hm4, by rw [he]; exact hu4, by rw [he]; exact hr4⟩
    · exact happ t2 ht1

/-- Bookkeeping facts after the server ticks of one model step, given
they hold before: the busy flag matches the current-task slot, task and
reference ids stay below the incremented clock, everything stays
unaliased, and the remaining-time invariant is preserved. -/
theorem step_mid {m1 : QueueServerModel}
    (hb : ∀ s ∈ m1.servers, s.busy = s.current_task.isSome)
    (hf : ∀ t ∈ m1.tasks, t.unique_id < m1.current_step + 1)
    (hrb : ∀ u ∈ modelRefs m1, u < m1.current_step + 1)
    (hrn : (modelRefs m1).Nodup)
    (hsn : (m1.tasks.map (fun t => t.unique_id)).Nodup)
    (hok : storeOK (modelRefs m1) m1.tasks)
    (hids : (m1.servers.map (fun s => s.unique_id)).Nodup) :
    (∀ s ∈ (stepAllServers m1.servers m1.tasks m1.current_step).1,
      s.busy = s.current_task.isSome) ∧
    (∀ t ∈ (stepAllServers m1.servers m1.tasks m1.current_step).2,
      t.unique_id < m1.current_step + 1) ∧
    (∀ u ∈ ((stepAllServers m1.servers m1.tasks m1.current_step).1).flatMap serverRefs,
      u < m1.current_step + 1) ∧
    (((stepAllServers m1.servers m1.tasks m1.current_step).1).flatMap serverRefs).Nodup ∧
    (((stepAllServers m1.servers m1.tasks m1.current_step).2).map (fun t => t.unique_id)).Nodup ∧
    storeOK (((stepAllServers m1.servers m1.tasks m1.current_step).1).flatMap serverRefs)
      ((stepAllServers m1.servers m1.tasks m1.current_step).2) ∧
    (((stepAllServers m1.servers m1.tasks m1.current_step).1).map (fun s => s.unique_id)).Nodup := by
  have hsubst := stepAllServers_refs_sublist m1.servers m1.tasks m1.current_step
  refine ⟨stepAllServers_busyInv hb, ?_, ?_, ?_, ?_, ?_, ?_⟩
  · intro t htm
    have hmem : t.unique_id ∈
        ((stepAllServers m1.servers m1.tasks m1.current_step).2).map (fun t => t.unique_id) :=
      List.mem_map_of_mem _ htm
    rw [stepAllServers_store_map_uid] at hmem
    obtain ⟨t0, ht0, he⟩ := List.mem_map.mp hmem
    rw [← he]
    exact hf t0 ht0
  · intro u hu
    exact hrb u (hsubst.subset hu)
  · exact hrn.sublist hsubst
  · rw [stepAllServers_store_map_uid]
    exact hsn
  · have h6 := stepAllServers_ok m1.servers m1.tasks m1.current_step []
      (by simpa using hrn) hsn (by simpa using hok)
    refine storeOK_mono ?_ h6
    intro v hv
    simpa using hv
  · rw [stepAllServers_map_id]
    exact hids

theorem goodArrival_some {x : ℚ} (h : goodArrival (some x) = true) :
    1 ≤ sampledServiceTime x := by
  simpa [goodArrival] using h

/-- One model step preserves well-formedness and the remaining-time
invariant, provided the step's arrival (if any) carries a floored sample
of at least 1. -/
theorem WF_storeOK_step {m : QueueServerModel} {a : Option ℚ}
    (hwf : WF m) (hok : storeOK (modelRefs m) m.tasks) (ha : goodArrival a = true) :
    WF (m.step a) ∧ storeOK (modelRefs (m.step a)) (m.step a).tasks := by
  rcases a with _ | x
  · obtain ⟨h1, h2, h3, h4, h5, h6, h7⟩ := step_mid hwf.busyInv
      (fun t htm => lt_trans (hwf.fresh t htm) (by omega))
      (fun u hu => lt_trans (hwf.refsBound u hu) (by omega))
      hwf.refsNodup hwf.storeNodup hok hwf.idsNodup
    exact ⟨⟨h1, h2, h3, h4, h5, h7⟩, h6⟩
  · have hst := goodArrival_some ha
    have hcs : (m.dispatch (m.newTask x)).current_step = m.current_step :=
      dispatch_current_step m _
    have huid : (m.newTask x).unique_id = m.current_step := rfl
    have hb1 := @dispatch_busyInv m (m.newTask x) hwf.busyInv
    have hids1 : (((m.dispatch (m.newTask x)).servers).map (fun s => s.unique_id)).Nodup := by
      rw [dispatch_map_id]
      exact hwf.idsNodup
    have hsn1 : (((m.dispatch (m.newTask x)).tasks).map (fun t => t.unique_id)).Nodup := by
      rw [dispatch_tasks_map_uid, huid]
      rw [List.nodup_append]
      refine ⟨hwf.storeNodup, by simp, ?_⟩
      intro v hv hv2
      obtain ⟨t0, ht0, he⟩ := List.mem_map.mp hv
      have := hwf.fresh t0 ht0
      simp at hv2
      omega
    have hf1 : ∀ t ∈ (m.dispatch (m.newTask x)).tasks,
        t.unique_id < (m.dispatch (m.newTask x)).current_step + 1 := by
      intro t htm
      have hmem : t.unique_id ∈ ((m.dispatch (m.newTask x)).tasks).map (fun t => t.unique_id) :=
        List.mem_map_of_mem _ htm
      rw [dispatch_tasks_map_uid, huid] at hmem
      rw [hcs]
      rcases List.mem_append.mp hmem with hm | hm
      · obtain ⟨t0, ht0, he⟩ := List.mem_map.mp hm
        have := hwf.fresh t0 ht0
        omega
      · simp at hm
        omega
    have hrefs := @dispatch_refs m (m.newTask x) hwf.idsNodup hwf.busyInv
    have hcsnotin : m.current_step ∉ modelRefs m := by
      intro hmem
      have := hwf.refsBound _ hmem
      omega
    have hrb1 : ∀ u ∈ modelRefs (m.dispatch (m.newTask x)),
        u < (m.dispatch (m.newTask x)).current_step + 1 := by
      intro u hu
      rw [hcs]
      rcases hrefs with hperm | heq
      · have := hperm.subset hu
        rw [huid] at this
        rcases List.mem_cons.mp this with he | hm
        · omega
        · have := hwf.refsBound u hm
          omega
      · rw [heq] at hu
        have := hwf.refsBound u hu
        omega
    have hrn1 : (modelRefs (m.dispatch (m.newTask x))).Nodup := by
      rcases hrefs with hperm | heq
      · refine hperm.nodup_iff.mpr ?_
        rw [huid, List.nodup_cons]
        exact ⟨hcsnotin, hwf.refsNodup⟩
      · rw [heq]
        exact hwf.refsNodup
    have hok1 : storeOK (modelRefs (m.dispatch (m.newTask x))) (m.dispatch (m.newTask x)).tasks := by
      have hokbig : storeOK (m.current_step :: modelRefs m) (m.dispatch (m.newTask x)).tasks := by
        intro t2 ht2
        obtain ⟨t1, hm1, hu1, hr1⟩ := dispatch_tasks_mem ht2
        rcases hm1 with hm1 | hm1
        · refine ⟨by rw [hr1]; exact (hok t1 hm1).1, ?_⟩
          intro hmem
          rcases List.mem_cons.mp hmem with he | hmem2
          · exfalso
            have := hwf.fresh t1 hm1
            rw [he] at hu1
            omega
          · rw [hr1]
            exact (hok t1 hm1).2 (by rw [← hu1]; exact hmem2)
        · rw [hm1] at hr1
          have hrt : t2.remaining_service_time = sampledServiceTime x := hr1
          exact ⟨by omega, fun _ => by omega⟩
      refine storeOK_mono ?_ hokbig
      intro v hv
      rcases hrefs with hperm | heq
      · have := hperm.subset hv
        rw [huid] at this
        exact this
      · rw [heq] at hv
        simp [hv]
    obtain ⟨h1, h2, h3, h4, h5, h6, h7⟩ := step_mid hb1 hf1 hrb1 hrn1 hsn1 hok1 hids1
    exact ⟨⟨h1, h2, h3, h4, h5, h7⟩, h6⟩

theorem flatMap_serverRefs_init : ∀ (l : List Nat),
    ((l.map ServerAgent.init).flatMap serverRefs) = [] := by
  intro l
  induction l with
  | nil => rfl
  | cons a l ih => simp [ih, serverRefs, ServerAgent.init]

theorem WF_init (n : Int) (r sr : ℚ) (ms : Int) : WF (QueueServerModel.init n r sr ms) := by
  have hrefs : modelRefs (QueueServerModel.init n r sr ms) = [] :=
    flatMap_serverRefs_init (List.range n.toNat)
  constructor
  · intro s hs
    obtain ⟨i, _, rfl⟩ := List.mem_map.mp hs
    rfl
  · intro t htm
    exact absurd htm (List.not_mem_nil t)
  · intro u hu
    rw [hrefs] at hu
    exact absurd hu (List.not_mem_nil u)
  · rw [hrefs]
    exact List.nodup_nil
  · exact List.nodup_nil
  · show (((List.range n.toNat).map ServerAgent.init).map (fun s => s.unique_id)).Nodup
    rw [List.map_map]
    have hcomp : ((fun (s : ServerAgent) => s.unique_id) ∘ ServerAgent.init) =
        fun (i : Nat) => i := by
      funext i
      rfl
    rw [hcomp]
    simpa using List.nodup_range n.toNat

theorem storeOK_init (n : Int) (r sr : ℚ) (ms : Int) :
    storeOK (modelRefs (QueueServerModel.init n r sr ms))
      (QueueServerModel.init n r sr ms).tasks := by
  intro t htm
  exact absurd htm (List.not_mem_nil t)

theorem run_WF_storeOK : ∀ (stream : List (Option ℚ)) (m : QueueServerModel),
    stream.all goodArrival = true → WF m → storeOK (modelRefs m) m.tasks →
    WF (m.run stream) ∧ storeOK (modelRefs (m.run stream)) (m.run stream).tasks := by
  intro stream
  induction stream with
  | nil =>
      intro m _ hwf hok
      exact ⟨hwf, hok⟩
  | cons a rest ih =>
      intro m h hwf hok
      obtain ⟨ha, hrest⟩ : goodArrival a = true ∧ rest.all goodArrival = true := by simpa using h
      rw [run_cons]
      obtain ⟨hwf2, hok2⟩ := WF_storeOK_step hwf hok ha
      exact ih _ hrest hwf2 hok2

/-- C7 (corrected): the nonnegativity invariant holds exactly under the
clamp the specification describes but the code lacks: on every run all of
whose arrivals carry a floored sample of at least 1 (for instance the
uniform-integer variant of `mesa.py`, whose `randint(2, 10)` service times
are at least 2), every stored task keeps `remaining_service_time ≥ 0` at
every step.  Without that condition the invariant is false: a
zero-service-time arrival is driven to `-1` by its own dispatch step's
tick (see the counterexample). -/
theorem remaining_nonneg_of_min_service (n : Int) (r sr : ℚ) (ms : Int)
    (stream : List (Option ℚ)) (h : stream.all goodArrival = true) :
    (((QueueServerModel.init n r sr ms).run stream).tasks.all
      (fun t => decide (0 ≤ t.remaining_service_time))) = true := by
  obtain ⟨_, hok⟩ := run_WF_storeOK stream _ h (WF_init n r sr ms) (storeOK_init n r sr ms)
  rw [List.all_eq_true]
  intro t htm
  exact decide_eq_true ((hok t htm).1)

/-- C7 witness: a three-step run with service times 2 and 3; every stored
task ends with nonnegative remaining service time. -/
theorem remaining_nonneg_of_min_service_witness :
    (((QueueServerModel.init 1 1 1 5).run [some 2, some 3, none]).tasks.all
      (fun t => decide (0 ≤ t.remaining_service_time))) = true :=
  remaining_nonneg_of_min_service 1 1 1 5 [some 2, some 3, none] (by decide)

end QueueSim
